import Mathlib

/-!
Verification of the rating-report command-line utility (src/script.py).

The program is a three-stage pipeline: a file validator, a row ingestor
(`read_csv_files`) and an aggregator (`calculate_average_rating`), followed by
an external table renderer.  This file gives a shallow embedding of that
pipeline and proves/refutes the frozen claims about it.

Modelling conventions:

* Python floats are modelled as `PyFloat`: either an exact rational or NaN.
  IEEE comparison semantics are kept (every comparison involving NaN is
  false, including equality).  Rounding of individual IEEE arithmetic
  operations is outside the model: rationals are exact.  Infinities are not
  modelled; they cannot survive ingestion (the range check rejects them), and
  no claim mentions them.
* Rational arithmetic is written with `mkRat` and integer operations (`qAdd`,
  `qDivNat`, ...) so that every definition evaluates inside the kernel; the
  bridge lemmas `qAdd_eq` etc. identify them with Mathlib's field operations.
* Python's `float(str)` builtin (an external primitive for the program) is
  modelled on the fragment the claims exercise: optionally signed decimal
  literals and the `nan` spellings.  Other accepted Python forms (exponents,
  infinities, underscores) are parse failures in the model; the affected rows
  are skipped either way.
* A CSV row as produced by the `csv.DictReader` primitive (external to the
  program per the spec) is an association list `List (String × Option String)`
  (`none` models a `None` cell).  A `Record`, the dict after ingestion mutated
  it, is `List (String × Val)` where a `Val` is `None`, a string, or a float.
  Association-list lookup of the first matching key coincides with Python dict
  lookup because dict keys are unique.
* `print` in the source always writes to standard output; the model tags every
  emitted event with the stream it goes to.  Messages are modelled as a
  structured type (one constructor per distinct message of the source), not as
  the literal Russian strings.
* Python's `sorted(..., reverse=True)` is modelled as a stable descending
  insertion sort, which is Python's documented behaviour (stable sort, equal
  elements keep their original order).  For keys that are incomparable under
  IEEE `<` (NaN) CPython's output order is not documented; where a claim
  depends on NaN averages, the statements below are arranged so that they do
  not depend on the exact placement of NaN rows.
-/

/-- Kernel-computable rational addition (Mathlib's `+` on `ℚ` is irreducible;
`qAdd_eq` identifies the two). -/
def qAdd (a b : ℚ) : ℚ := mkRat (a.num * b.den + b.num * a.den) (a.den * b.den)

/-- Kernel-computable `a / n` for a natural `n`. -/
def qDivNat (a : ℚ) (n : Nat) : ℚ := mkRat a.num (a.den * n)

/-- Kernel-computable negation. -/
def qNeg (a : ℚ) : ℚ := mkRat (-a.num) a.den

/-- Kernel-computable `a * 100`. -/
def qMul100 (a : ℚ) : ℚ := mkRat (a.num * 100) a.den

theorem qAdd_eq (a b : ℚ) : qAdd a b = a + b := by
  rw [qAdd, Rat.mkRat_eq_divInt, Rat.divInt_eq_div]
  have ha : (a.den : ℚ) ≠ 0 := by positivity
  have hb : (b.den : ℚ) ≠ 0 := by positivity
  conv_rhs => rw [← Rat.num_div_den a, ← Rat.num_div_den b]
  push_cast
  field_simp

theorem qDivNat_eq (a : ℚ) (n : Nat) : qDivNat a n = a / n := by
  rw [qDivNat, Rat.mkRat_eq_divInt, Rat.divInt_eq_div]
  rcases Nat.eq_zero_or_pos n with h | h
  · simp [h]
  · push_cast
    rw [← div_div, Rat.num_div_den]

theorem qNeg_eq (a : ℚ) : qNeg a = -a := by
  rw [qNeg, Rat.mkRat_eq_divInt, Rat.divInt_eq_div]
  push_cast
  rw [neg_div, Rat.num_div_den]

theorem qMul100_eq (a : ℚ) : qMul100 a = a * 100 := by
  rw [qMul100, Rat.mkRat_eq_divInt, Rat.divInt_eq_div]
  push_cast
  rw [mul_comm (a.num : ℚ) 100, mul_div_assoc, Rat.num_div_den, mul_comm]

/-- A Python float: an exact rational number or NaN.  (Infinities are outside
the model; see the header comment.) -/
inductive PyFloat
  | finite (q : ℚ)
  | nan
  deriving DecidableEq

/-- Python `<` on floats: any comparison with NaN is false. -/
def pyLt : PyFloat → PyFloat → Bool
  | PyFloat.finite p, PyFloat.finite q => decide (p < q)
  | _, _ => false

/-- Python `>` on floats: any comparison with NaN is false. -/
def pyGt : PyFloat → PyFloat → Bool
  | PyFloat.finite p, PyFloat.finite q => decide (q < p)
  | _, _ => false

/-- Python `>=` on floats: any comparison with NaN is false. -/
def pyGe : PyFloat → PyFloat → Bool
  | PyFloat.finite p, PyFloat.finite q => decide (q ≤ p)
  | _, _ => false

/-- Python `==` on floats: NaN is not equal to anything, including itself. -/
def pyEq : PyFloat → PyFloat → Bool
  | PyFloat.finite p, PyFloat.finite q => decide (p = q)
  | _, _ => false

/-- Python `+` on floats: NaN is absorbing. -/
def pyAdd : PyFloat → PyFloat → PyFloat
  | PyFloat.finite p, PyFloat.finite q => PyFloat.finite (qAdd p q)
  | _, _ => PyFloat.nan

/-- Python `x / n` for a float `x` and a positive integer `n` (the group size
in the source; groups are never empty, so `n = 0` never occurs there). -/
def pyDivNat : PyFloat → Nat → PyFloat
  | PyFloat.finite q, n => PyFloat.finite (qDivNat q n)
  | PyFloat.nan, _ => PyFloat.nan

/-- Round a rational to the nearest integer, ties to even: the rounding rule
of Python's builtin `round`.  Written with integer arithmetic: with
`f = ⌊q⌋ = q.num / q.den` and `t / q.den = 2 * (q - f)`, the fraction part of
`q` is below, above or exactly one half according as `t` compares to `q.den`. -/
def halfEven (q : ℚ) : ℤ :=
  let f : ℤ := q.num / q.den
  let t : ℤ := 2 * (q.num - f * q.den)
  if t < q.den then f
  else if (q.den : ℤ) < t then f + 1
  else if f % 2 = 0 then f else f + 1

/-- Python `round(q, 2)` on the rational fragment: round to the nearest
multiple of 1/100, ties to even. -/
def rnd2 (q : ℚ) : ℚ := mkRat (halfEven (qMul100 q)) 100

/-- Python `round(x, 2)` on floats: NaN rounds to NaN. -/
def pyRound2 : PyFloat → PyFloat
  | PyFloat.finite q => PyFloat.finite (rnd2 q)
  | PyFloat.nan => PyFloat.nan

/-- The whitespace characters stripped by Python's `str.strip()` (ASCII
fragment). -/
def pyWS (c : Char) : Bool :=
  c = ' ' || c = '\t' || c = '\n' || c = '\r' || c = Char.ofNat 11 || c = Char.ofNat 12

/-- Python `str.strip()`: drop leading and trailing whitespace. -/
def pyStrip (s : String) : String :=
  String.mk (((s.data.dropWhile pyWS).reverse.dropWhile pyWS).reverse)

/-- Numeric value of a list of decimal digit characters (empty list is 0,
matching how `float("4.")` and `float(".5")` read their missing halves). -/
def natOfDigits (cs : List Char) : Nat :=
  cs.foldl (fun a c => a * 10 + (c.toNat - 48)) 0

/-- Parse an unsigned decimal literal (digits with at most one point, at least
one digit) as an exact rational. -/
def parseUnsigned (cs : List Char) : Option ℚ :=
  let ip := cs.takeWhile Char.isDigit
  let rest := cs.dropWhile Char.isDigit
  match rest with
  | [] => if ip.isEmpty then none else some (mkRat (natOfDigits ip) 1)
  | '.' :: fp =>
      if fp.all Char.isDigit && (!ip.isEmpty || !fp.isEmpty) then
        some (mkRat (natOfDigits ip * 10 ^ fp.length + natOfDigits fp) (10 ^ fp.length))
      else none
  | _ => none

/-- Python's `float(str)` builtin on the modelled fragment: an optional sign
followed by either a decimal literal or (case-insensitively) `nan`.
`none` models a raised `ValueError`. -/
def pyFloatOfString (s : String) : Option PyFloat :=
  let body : Bool × List Char :=
    match s.data with
    | '+' :: t => (false, t)
    | '-' :: t => (true, t)
    | t => (false, t)
  if body.2.map Char.toLower = ['n', 'a', 'n'] then some PyFloat.nan
  else (parseUnsigned body.2).map (fun q => PyFloat.finite (if body.1 then qNeg q else q))

/-- A Python dict value as it occurs in this program: `None`, a string, or a
float. -/
inductive Val
  | vNone
  | vStr (s : String)
  | vNum (x : PyFloat)
  deriving DecidableEq

/-- First-match association-list lookup; with unique keys this is exactly
Python dict lookup (`none` models a `KeyError` from `row[k]`). -/
def assocGet {β : Type} (k : String) : List (String × β) → Option β
  | [] => none
  | (k', v) :: t => if k' = k then some v else assocGet k t

/-- Python `d[k] = v`: replace the value at the first occurrence of `k`,
appending the binding when the key is absent. -/
def setVal (k : String) (v : Val) : List (String × Val) → List (String × Val)
  | [] => [(k, v)]
  | (k', v') :: t => if k' = k then (k, v) :: t else (k', v') :: setVal k v t

example : pyStrip "  ab c\t" = "ab c" := by decide
example : pyFloatOfString "4.7" = some (PyFloat.finite (mkRat 47 10)) := by decide
example : pyFloatOfString "nan" = some PyFloat.nan := by decide
example : pyFloatOfString "-NaN" = some PyFloat.nan := by decide
example : pyFloatOfString "" = none := by decide
example : pyFloatOfString "abc" = none := by decide
example : pyFloatOfString "-1.0" = some (PyFloat.finite (mkRat (-1) 1)) := by decide
example : pyFloatOfString "5.0" = some (PyFloat.finite (mkRat 5 1)) := by decide
example : rnd2 (mkRat 13 3) = mkRat 433 100 := by decide
example : rnd2 (mkRat 24 5) = mkRat 24 5 := by decide
example : rnd2 (mkRat 4335 1000) = mkRat 434 100 := by decide
example : pyLt PyFloat.nan (PyFloat.finite 0) = false := by decide
example : pyGt PyFloat.nan (PyFloat.finite (mkRat 5 1)) = false := by decide

instance {ε α : Type} [DecidableEq ε] [DecidableEq α] : DecidableEq (Except ε α) := fun a b =>
  match a, b with
  | Except.error e, Except.error f =>
      if h : e = f then isTrue (congrArg Except.error h)
      else isFalse (fun hh => h (Except.error.inj hh))
  | Except.ok x, Except.ok y =>
      if h : x = y then isTrue (congrArg Except.ok h)
      else isFalse (fun hh => h (Except.ok.inj hh))
  | Except.error _, Except.ok _ => isFalse (fun hh => Except.noConfusion hh)
  | Except.ok _, Except.error _ => isFalse (fun hh => Except.noConfusion hh)

/-- The diagnostic messages of the program, one constructor per distinct
message of the source (the literal Russian text is not modelled). -/
inductive Msg
  | missingColumns (file : String)
  | badRatingFormat (rowNum : Nat) (file : String)
  | ratingOutOfRange (value : PyFloat) (rowNum : Nat) (file : String)
  | noValidData (file : String)
  | fileNotFound (file : String)
  | noReadAccess (file : String)
  | readFailure (file : String)
  | noDataAtAll
  | skippedRecords (n : Nat)
  | noDataForRatings
  | emptyReport
  | fileNotExist (file : String)
  | notACsvFile (file : String)
  | noValidFiles
  | unexpectedFailure
  deriving DecidableEq

/-- One row of the aggregated report: the source dict
`{'brand': ..., 'average_rating': ...}`. -/
structure ReportRow where
  brand : Val
  average_rating : PyFloat
  deriving DecidableEq

/-- An output stream of the process. -/
inductive StdStream
  | stdout
  | stderr
  deriving DecidableEq

/-- What an output event carries: a diagnostic message or the rendered report
table (the renderer itself is an external primitive). -/
inductive EvKind
  | diag (m : Msg)
  | render (rows : List ReportRow)
  deriving DecidableEq

/-- An output event: which stream it goes to and what it carries. -/
structure Ev where
  stream : StdStream
  kind : EvKind
  deriving DecidableEq

/-- The source emits every diagnostic with a bare `print`, which writes to
standard output. -/
def put (m : Msg) : Ev := Ev.mk StdStream.stdout (EvKind.diag m)

/-- Descending comparison on report rows, the key of
`sorted(report, key=lambda x: x['average_rating'], reverse=True)`. -/
def rowGe (a b : ReportRow) : Prop := pyGe a.average_rating b.average_rating = true

instance : DecidableRel rowGe := fun a b =>
  inferInstanceAs (Decidable (pyGe a.average_rating b.average_rating = true))

/-- The sort of the aggregator: stable, descending by rounded average. -/
def sortReport : List ReportRow → List ReportRow := List.insertionSort rowGe

/-- The `try` body of the aggregator's loop: the pair
`(row['brand'], row['rating'])`, or `none` when a lookup raises `KeyError`. -/
def usableOf (row : List (String × Val)) : Option (Val × Val) :=
  match assocGet "brand" row, assocGet "rating" row with
  | some b, some r => some (b, r)
  | _, _ => none

/-- `brand_ratings[brand].append(rating)` on an insertion-ordered dict
(Python dicts preserve insertion order). -/
def addRating (b r : Val) : List (Val × List Val) → List (Val × List Val)
  | [] => [(b, [r])]
  | (k, rs) :: t => if k = b then (k, rs ++ [r]) :: t else (k, rs) :: addRating b r t

/-- The grouping pass of `calculate_average_rating`. -/
def brandRatings (data : List (List (String × Val))) : List (Val × List Val) :=
  data.foldl
    (fun gs row =>
      match usableOf row with
      | some (b, r) => addRating b r gs
      | none => gs)
    []

/-- The `skipped_count` of the aggregator: rows whose lookup raised. -/
def skippedCount (data : List (List (String × Val))) : Nat :=
  data.countP (fun row => (usableOf row).isNone)

/-- Python `sum(ratings)` over dict values: starts from 0 and adds; a
non-float value raises `TypeError`, modelled as `none`. -/
def vsum (rs : List Val) : Option PyFloat :=
  rs.foldl
    (fun acc v =>
      match acc, v with
      | some a, Val.vNum x => some (pyAdd a x)
      | _, _ => none)
    (some (PyFloat.finite (mkRat 0 1)))

/-- `sum(ratings) / len(ratings)`. -/
def vmean (rs : List Val) : Option PyFloat :=
  (vsum rs).map (fun s => pyDivNat s rs.length)

/-- Map a fallible function over a list, failing at the first failure (the
order in which Python's loop would raise). -/
def seqMapOpt {α β : Type} (f : α → Option β) : List α → Option (List β)
  | [] => some []
  | a :: t =>
      match f a with
      | none => none
      | some b =>
          match seqMapOpt f t with
          | none => none
          | some bs => some (b :: bs)

/-- The aggregator `calculate_average_rating` of the source: group the usable
rows by brand, average each group, round to two decimals, sort descending.
`none` models an uncaught `TypeError` from `sum` on a non-float rating value
(the per-row `try` in the source only guards the two lookups). -/
def calculate_average_rating (data : List (List (String × Val))) : Option (List ReportRow) :=
  let gs := brandRatings data
  if gs.isEmpty then some []
  else
    (seqMapOpt (fun g => (vmean g.2).map (fun m => ReportRow.mk g.1 (pyRound2 m))) gs).map
      sortReport

/-- The diagnostics `calculate_average_rating` prints (in source order:
the skipped-records warning, then the no-data error). -/
def avgMessages (data : List (List (String × Val))) : List Msg :=
  (if 0 < skippedCount data then [Msg.skippedRecords (skippedCount data)] else []) ++
    (if (brandRatings data).isEmpty then [Msg.noDataForRatings] else [])

/-- A `None` or string cell of a parsed CSV row, as a dict value. -/
def injOpt : Option String → Val
  | none => Val.vNone
  | some s => Val.vStr s

/-- A parsed CSV row as the dict the ingestor starts from. -/
def injRow (row : List (String × Option String)) : List (String × Val) :=
  row.map (fun p => (p.1, injOpt p.2))

/-- `row.get(k)` on a parsed CSV row: `None` both for an absent key and a
`None` value (the two are equally falsy where the result is used). -/
def rowGet (row : List (String × Option String)) (k : String) : Option String :=
  (assocGet k row).join

/-- Outcome of the ingestor's per-row body. -/
inductive RowOut
  | skip
  | badFormat
  | badRange (x : PyFloat)
  | accept (rec : List (String × Val))
  deriving DecidableEq

/-- The per-row body of `read_csv_files` (source lines 25-52): falsy-skip,
trim, trim-empty skip, float parse (warning on failure), range check
(warning on failure), and acceptance with the dict mutated in place. -/
def processRow (row : List (String × Option String)) : RowOut :=
  match rowGet row "brand", rowGet row "rating" with
  | some bs, some rs =>
      if bs = "" || rs = "" then RowOut.skip
      else
        let brand := pyStrip bs
        let ratingStr := pyStrip rs
        if brand = "" || ratingStr = "" then RowOut.skip
        else
          match pyFloatOfString ratingStr with
          | none => RowOut.badFormat
          | some x =>
              if pyLt x (PyFloat.finite (mkRat 0 1)) || pyGt x (PyFloat.finite (mkRat 5 1)) then
                RowOut.badRange x
              else
                RowOut.accept (setVal "rating" (Val.vNum x) (setVal "brand" (Val.vStr (pyStrip bs)) (injRow row)))
  | _, _ => RowOut.skip

/-- The ingestor's row loop for one file, rows numbered from 2: the accepted
records and the warnings, both in row order. -/
def processRows (file : String) : Nat → List (List (String × Option String)) →
    List (List (String × Val)) × List Msg
  | _, [] => ([], [])
  | n, row :: rest =>
      let tail := processRows file (n + 1) rest
      match processRow row with
      | RowOut.skip => tail
      | RowOut.badFormat => (tail.1, Msg.badRatingFormat n file :: tail.2)
      | RowOut.badRange x => (tail.1, Msg.ratingOutOfRange x n file :: tail.2)
      | RowOut.accept r => (r :: tail.1, tail.2)

/-- The failure of opening or decoding a file (the three `except` arms of
`read_csv_files`). -/
inductive ReadFailureKind
  | notFound
  | permission
  | other
  deriving DecidableEq

/-- What opening a candidate file yields: a read failure, or the parsed
header names and rows (the CSV parsing primitive is external; an empty file,
whose `fieldnames` is `None` in the source, is represented by an empty
`fieldnames` list, which takes the same skip-file branch). -/
inductive FileData
  | failed (k : ReadFailureKind)
  | content (fieldnames : List String) (rows : List (List (String × Option String)))
  deriving DecidableEq

/-- An input file of the ingestor: its path and what opening it yields. -/
structure IngFile where
  name : String
  data : FileData
  deriving DecidableEq

/-- The diagnostic of each `except` arm of `read_csv_files`. -/
def failureMsg (k : ReadFailureKind) (file : String) : Msg :=
  match k with
  | ReadFailureKind.notFound => Msg.fileNotFound file
  | ReadFailureKind.permission => Msg.noReadAccess file
  | ReadFailureKind.other => Msg.readFailure file

/-- The header check of `read_csv_files`: both required columns present. -/
def hasRequiredColumns (fns : List String) : Bool :=
  decide ("brand" ∈ fns) && decide ("rating" ∈ fns)

/-- One readable file's contribution: its accepted records and its printed
warnings (the missing-columns warning, or the row warnings followed by the
no-valid-data warning when nothing was accepted). -/
def contentOutput (name : String) (fns : List String)
    (rows : List (List (String × Option String))) :
    List (List (String × Val)) × List Msg :=
  if hasRequiredColumns fns then
    let pr := processRows name 2 rows
    (pr.1, pr.2 ++ (if pr.1.isEmpty then [Msg.noValidData name] else []))
  else ([], [Msg.missingColumns name])

/-- The file loop of `read_csv_files`: events in print order, and the
accumulated records, or `none` after a fatal read failure (`sys.exit(1)`
inside the loop). -/
def ingestFiles : List IngFile → List Ev × Option (List (List (String × Val)))
  | [] => ([], some [])
  | f :: rest =>
      match f.data with
      | FileData.failed k => ([put (failureMsg k f.name)], none)
      | FileData.content fns rows =>
          let co := contentOutput f.name fns rows
          match ingestFiles rest with
          | (evs, none) => (co.2.map put ++ evs, none)
          | (evs, some data) => (co.2.map put ++ evs, some (co.1 ++ data))

/-- `read_csv_files` of the source: the file loop followed by the final
empty-data check; `Except.error` models `sys.exit(1)`. -/
def read_csv_files (files : List IngFile) :
    List Ev × Except Unit (List (List (String × Val))) :=
  match ingestFiles files with
  | (evs, none) => (evs, Except.error ())
  | (evs, some data) =>
      if data.isEmpty then (evs ++ [put Msg.noDataAtAll], Except.error ())
      else (evs, Except.ok data)

/-- A report handler as `main` uses one: from the ingested records to the
report (`none` models an uncaught exception) and its printed diagnostics.
The registry ships exactly one handler, `avgHandler`. -/
def Handler : Type := List (List (String × Val)) → Option (List ReportRow) × List Msg

/-- The one registered handler, `'average-rating': calculate_average_rating`. -/
def avgHandler : Handler := fun data => (calculate_average_rating data, avgMessages data)

/-- The post-validation part of `main`: ingest, run the report handler, and
either print the empty-report message (exit 0), render the table (exit 0),
fail on ingestion (exit 1), or fail on an uncaught handler exception
(exit 1, the outer `except Exception`). -/
def runPipeline (files : List IngFile) (h : Handler) : List Ev × Nat :=
  match read_csv_files files with
  | (evs, Except.error _) => (evs, 1)
  | (evs, Except.ok data) =>
      let hr := h data
      let evs2 := evs ++ hr.2.map put
      match hr.1 with
      | none => (evs2 ++ [put Msg.unexpectedFailure], 1)
      | some [] => (evs2 ++ [put Msg.emptyReport], 0)
      | some report => (evs2 ++ [Ev.mk StdStream.stdout (EvKind.render report)], 0)

/-- A candidate path as the validator in `main` sees it: the path string, the
two queried filesystem attributes, and what opening it would yield. -/
structure CandFile where
  path : String
  isRegularFile : Bool
  readable : Bool
  data : FileData
  deriving DecidableEq

/-- `file.lower().endswith('.csv')`. -/
def lowerCsvSuffix (p : String) : Bool :=
  ['.', 'c', 's', 'v'].isSuffixOf (p.data.map Char.toLower)

/-- The validator's per-path checks, in source order; `some` is the fatal
diagnostic of the first failing check. -/
def checkCand (c : CandFile) : Option Msg :=
  if !c.isRegularFile then some (Msg.fileNotExist c.path)
  else if !lowerCsvSuffix c.path then some (Msg.notACsvFile c.path)
  else if !c.readable then some (Msg.noReadAccess c.path)
  else none

/-- The validator loop: the first fatal diagnostic, if any. -/
def firstFailure : List CandFile → Option Msg
  | [] => none
  | c :: t =>
      match checkCand c with
      | some m => some m
      | none => firstFailure t

/-- The `main` of the source on a given handler (named `mainRun` here since Lean reserves `main`): validate every path (fail-fast),
then run the pipeline.  (The `argparse` collaborator, the interrupt handler
and the generic exception wrapper around the validator are outside the model;
the handler's exception path is modelled in `runPipeline`.) -/
def mainRun (cands : List CandFile) (h : Handler) : List Ev × Nat :=
  match firstFailure cands with
  | some m => ([put m], 1)
  | none =>
      if cands.isEmpty then ([put Msg.noValidFiles], 1)
      else runPipeline (cands.map (fun c => IngFile.mk c.path c.data)) h

/-- Whether an event is a diagnostic message. -/
def isDiagEv (e : Ev) : Bool :=
  match e.kind with
  | EvKind.diag _ => true
  | EvKind.render _ => false

/-- Whether an event is the rendered report table. -/
def isRenderEv (e : Ev) : Bool :=
  match e.kind with
  | EvKind.diag _ => false
  | EvKind.render _ => true

/-- The records one input file contributes (none for a failed file; the file
loop aborts there anyway). -/
def acceptedOf (f : IngFile) : List (List (String × Val)) :=
  match f.data with
  | FileData.failed _ => []
  | FileData.content fns rows => (contentOutput f.name fns rows).1

/-- The ratings the aggregator collects for brand `b`, in input order. -/
def ratingsOf (data : List (List (String × Val))) (b : Val) : List Val :=
  data.filterMap
    (fun row =>
      match usableOf row with
      | some (b', r) => if b' = b then some r else none
      | none => none)

/-- The brands of the usable rows, in input order (with repetitions). -/
def usableBrands (data : List (List (String × Val))) : List Val :=
  data.filterMap (fun row => (usableOf row).map Prod.fst)

/-- First occurrences of a list, in order of first appearance: the key order
of an insertion-ordered dict built from the list. -/
def firstAppear (bs : List Val) : List Val :=
  bs.foldl (fun ks b => if b ∈ ks then ks else ks ++ [b]) []

/-- Lookup of one brand's rating list in the grouping structure. -/
def groupGet (b : Val) : List (Val × List Val) → Option (List Val)
  | [] => none
  | (k, rs) :: t => if k = b then some rs else groupGet b t

/-- Claim C6: for the single-brand input of ratings 4.0, 4.0 and 5.0, the
aggregator reports exactly the average 4.33: the mean 13/3 = 4.333...
rounded to two decimal places.  (The second conjunct pins the `mkRat`
literal to the rational 433/100.) -/
theorem single_brand_4_4_5_averages_433 :
    calculate_average_rating
        [[("brand", Val.vStr "apple"), ("rating", Val.vNum (PyFloat.finite (mkRat 4 1)))],
         [("brand", Val.vStr "apple"), ("rating", Val.vNum (PyFloat.finite (mkRat 4 1)))],
         [("brand", Val.vStr "apple"), ("rating", Val.vNum (PyFloat.finite (mkRat 5 1)))]] =
      some [ReportRow.mk (Val.vStr "apple") (PyFloat.finite (mkRat 433 100))] ∧
    (mkRat 433 100 : ℚ) = 433 / 100 ∧ rnd2 (mkRat 13 3) = mkRat 433 100 :=
  ⟨by decide, by rw [Rat.mkRat_eq_divInt, Rat.divInt_eq_div]; norm_num, by decide⟩

/-- Claim C10: the string `nan` parses to the float NaN, both range
comparisons `rating < 0` and `rating > 5` are false on NaN, so the row is
accepted by the ingestor with a NaN rating, reaches the aggregator, and makes
its brand's reported average NaN. -/
theorem nan_rating_reaches_aggregator :
    pyFloatOfString "nan" = some PyFloat.nan ∧
    pyLt PyFloat.nan (PyFloat.finite (mkRat 0 1)) = false ∧
    pyGt PyFloat.nan (PyFloat.finite (mkRat 5 1)) = false ∧
    processRow [("brand", some "acme"), ("rating", some "nan")] =
      RowOut.accept [("brand", Val.vStr "acme"), ("rating", Val.vNum PyFloat.nan)] ∧
    read_csv_files
        [IngFile.mk "r.csv"
          (FileData.content ["brand", "rating"]
            [[("brand", some "acme"), ("rating", some "nan")]])] =
      ([], Except.ok [[("brand", Val.vStr "acme"), ("rating", Val.vNum PyFloat.nan)]]) ∧
    calculate_average_rating [[("brand", Val.vStr "acme"), ("rating", Val.vNum PyFloat.nan)]] =
      some [ReportRow.mk (Val.vStr "acme") PyFloat.nan] := by
  refine ⟨by decide, by decide, by decide, by decide, by decide, by decide⟩

/-- Claim C3, the code evaluated at the failing input: a record whose
`brand` key is present but maps to the empty string is not excluded by the
aggregator; it is grouped under the empty-string brand and reported.  The
repository's own tests (`test_calculate_rating_with_invalid_data`, which
expects exactly one report row for this input, and
`test_calculate_rating_all_invalid`, which expects an empty report when only
the empty-brand record remains) assert that such records are excluded, so
the code contradicts its own test suite here. -/
theorem empty_brand_record_is_reported :
    calculate_average_rating
        [[("brand", Val.vStr "apple"), ("rating", Val.vNum (PyFloat.finite (mkRat 47 10)))],
         [("brand", Val.vStr "apple")],
         [("brand", Val.vStr ""), ("rating", Val.vNum (PyFloat.finite (mkRat 9 2)))],
         [("not_brand", Val.vStr "sony"), ("rating", Val.vNum (PyFloat.finite (mkRat 4 1)))]] =
      some [ReportRow.mk (Val.vStr "apple") (PyFloat.finite (mkRat 47 10)),
            ReportRow.mk (Val.vStr "") (PyFloat.finite (mkRat 9 2))] ∧
    calculate_average_rating
        [[("brand", Val.vStr ""), ("rating", Val.vNum (PyFloat.finite (mkRat 9 2)))],
         [("not_brand", Val.vStr "sony"), ("rating", Val.vNum (PyFloat.finite (mkRat 4 1)))]] =
      some [ReportRow.mk (Val.vStr "") (PyFloat.finite (mkRat 9 2))] := by
  exact ⟨by decide, by decide⟩


theorem assocGet_setVal_same (k : String) (v : Val) (l : List (String × Val)) :
    assocGet k (setVal k v l) = some v := by
  induction l with
  | nil => simp [setVal, assocGet]
  | cons p t ih =>
      rcases p with ⟨k', v'⟩
      by_cases h : k' = k
      · simp [setVal, assocGet, h]
      · simp [setVal, assocGet, h, ih]

theorem assocGet_setVal_other (k k' : String) (hkk : k' ≠ k) (v : Val)
    (l : List (String × Val)) : assocGet k' (setVal k v l) = assocGet k' l := by
  induction l with
  | nil => simp [setVal, assocGet, Ne.symm hkk]
  | cons p t ih =>
      rcases p with ⟨k0, v0⟩
      by_cases h : k0 = k
      · subst h
        simp [setVal, assocGet, Ne.symm hkk]
      · by_cases h2 : k0 = k'
        · simp [setVal, assocGet, h, h2, hkk]
        · simp [setVal, assocGet, h, h2, ih]

theorem assocGet_injRow (k : String) (row : List (String × Option String)) :
    assocGet k (injRow row) = (assocGet k row).map injOpt := by
  induction row with
  | nil => simp [injRow, assocGet]
  | cons p t ih =>
      rcases p with ⟨k0, v0⟩
      by_cases h : k0 = k
      · simp [injRow, assocGet, h]
      · simp only [injRow, List.map, assocGet, if_neg h]
        exact ih

/-- Claim C9: an accepted row becomes a record equal to the source row except
that `brand` holds the trimmed brand string and `rating` holds the parsed
float; the value of every other key is retained verbatim (same lookup result
as in the source row). -/
theorem accepted_record_frame (row : List (String × Option String))
    (r : List (String × Val)) (hacc : processRow row = RowOut.accept r) :
    (∃ bs rs x,
        rowGet row "brand" = some bs ∧
        rowGet row "rating" = some rs ∧
        pyFloatOfString (pyStrip rs) = some x ∧
        assocGet "brand" r = some (Val.vStr (pyStrip bs)) ∧
        assocGet "rating" r = some (Val.vNum x)) ∧
    (∀ k, k ≠ "brand" → k ≠ "rating" → assocGet k r = (assocGet k row).map injOpt) := by
  unfold processRow at hacc
  split at hacc
  case h_2 => cases hacc
  case h_1 bs rs hb hr =>
    split at hacc
    · cases hacc
    · dsimp only at hacc
      split at hacc
      · cases hacc
      · split at hacc
        · cases hacc
        · rename_i x hx
          split at hacc
          · cases hacc
          · have hrv :
                r = setVal "rating" (Val.vNum x)
                    (setVal "brand" (Val.vStr (pyStrip bs)) (injRow row)) :=
              (RowOut.accept.inj hacc).symm
            subst hrv
            refine ⟨⟨bs, rs, x, hb, hr, hx, ?_, ?_⟩, ?_⟩
            · rw [assocGet_setVal_other "rating" "brand" (by decide),
                assocGet_setVal_same]
            · rw [assocGet_setVal_same]
            · intro k hk1 hk2
              rw [assocGet_setVal_other "rating" k hk2,
                assocGet_setVal_other "brand" k hk1, assocGet_injRow]

/-- Witness for the frame theorem: a concrete accepted row with an extra
`name` field, whose record keeps that field verbatim. -/
theorem accepted_record_frame_witness :
    (∃ bs rs x,
        rowGet [("name", some "p"), ("brand", some " apple "), ("rating", some "4.5")]
            "brand" = some bs ∧
        rowGet [("name", some "p"), ("brand", some " apple "), ("rating", some "4.5")]
            "rating" = some rs ∧
        pyFloatOfString (pyStrip rs) = some x ∧
        assocGet "brand"
            [("name", Val.vStr "p"), ("brand", Val.vStr "apple"),
             ("rating", Val.vNum (PyFloat.finite (mkRat 9 2)))] =
          some (Val.vStr (pyStrip bs)) ∧
        assocGet "rating"
            [("name", Val.vStr "p"), ("brand", Val.vStr "apple"),
             ("rating", Val.vNum (PyFloat.finite (mkRat 9 2)))] =
          some (Val.vNum x)) ∧
    (∀ k, k ≠ "brand" → k ≠ "rating" →
        assocGet k
            [("name", Val.vStr "p"), ("brand", Val.vStr "apple"),
             ("rating", Val.vNum (PyFloat.finite (mkRat 9 2)))] =
          (assocGet k
              [("name", some "p"), ("brand", some " apple "), ("rating", some "4.5")]).map
            injOpt) :=
  accepted_record_frame
    [("name", some "p"), ("brand", some " apple "), ("rating", some "4.5")]
    [("name", Val.vStr "p"), ("brand", Val.vStr "apple"),
     ("rating", Val.vNum (PyFloat.finite (mkRat 9 2)))]
    (by decide)

theorem read_ok_ne_nil (files : List IngFile) (evs : List Ev)
    (data : List (List (String × Val)))
    (hok : read_csv_files files = (evs, Except.ok data)) : data ≠ [] := by
  unfold read_csv_files at hok
  rcases h : ingestFiles files with ⟨evs0, res⟩
  rw [h] at hok
  cases res with
  | none => cases (Prod.mk.inj hok).2
  | some d =>
      dsimp only at hok
      by_cases hd : d.isEmpty
      · rw [if_pos hd] at hok
        cases (Prod.mk.inj hok).2
      · rw [if_neg hd] at hok
        have hde : d = data := Except.ok.inj (Prod.mk.inj hok).2
        subst hde
        intro hnil
        rw [hnil] at hd
        exact hd rfl

/-- Claim C8: whenever ingestion returns at least one record (which is
exactly when it returns successfully) and the report handler produces an
empty report, the run prints the distinct empty-report diagnostic and exits
with status 0. -/
theorem empty_report_exits_zero (files : List IngFile) (h : Handler)
    (data : List (List (String × Val))) (evs : List Ev) (msgs : List Msg)
    (hing : read_csv_files files = (evs, Except.ok data))
    (hh : h data = (some [], msgs)) :
    data ≠ [] ∧
    runPipeline files h = (evs ++ List.map put msgs ++ [put Msg.emptyReport], 0) := by
  refine ⟨read_ok_ne_nil files evs data hing, ?_⟩
  unfold runPipeline
  rw [hing]
  dsimp only
  rw [hh]

/-- Witness for the empty-report theorem: one valid ingested record, a
handler that returns an empty report, exit status 0 with the empty-report
message. -/
theorem empty_report_exits_zero_witness :
    ([[("brand", Val.vStr "x"), ("rating", Val.vNum (PyFloat.finite (mkRat 4 1)))]] ≠
        ([] : List (List (String × Val)))) ∧
    runPipeline
        [IngFile.mk "a.csv"
          (FileData.content ["brand", "rating"]
            [[("brand", some "x"), ("rating", some "4.0")]])]
        (fun _ => (some [], [])) =
      ([] ++ List.map put [] ++ [put Msg.emptyReport], 0) :=
  empty_report_exits_zero _ _
    [[("brand", Val.vStr "x"), ("rating", Val.vNum (PyFloat.finite (mkRat 4 1)))]]
    [] [] (by decide) rfl

theorem ingestFiles_records (files : List IngFile) :
    (ingestFiles files).2 = none ∨
    (ingestFiles files).2 = some (files.map acceptedOf).flatten := by
  induction files with
  | nil => right; rfl
  | cons f rest ih =>
      cases hd : f.data with
      | failed k => left; simp [ingestFiles, hd]
      | content fns rows =>
          rcases hrest : ingestFiles rest with ⟨evs, res⟩
          rw [hrest] at ih
          cases res with
          | none => left; simp [ingestFiles, hd, hrest]
          | some data =>
              rcases ih with hnone | hsome
              · cases hnone
              · right
                have hdata : data = (List.map acceptedOf rest).flatten :=
                  Option.some.inj hsome
                simp [ingestFiles, hd, hrest, acceptedOf, hdata]

theorem ingest_events_put (files : List IngFile) :
    ∀ ev ∈ (ingestFiles files).1, ∃ m, ev = put m := by
  induction files with
  | nil => intro ev hev; cases hev
  | cons f rest ih =>
      cases hd : f.data with
      | failed k =>
          intro ev hev
          simp [ingestFiles, hd] at hev
          exact ⟨_, hev⟩
      | content fns rows =>
          rcases hrest : ingestFiles rest with ⟨evs, res⟩
          rw [hrest] at ih
          intro ev hev
          cases res with
          | none =>
              simp [ingestFiles, hd, hrest] at hev
              rcases hev with hev | hev
              · rcases hev with ⟨m, _, hm⟩
                exact ⟨m, hm.symm⟩
              · exact ih ev hev
          | some data =>
              simp [ingestFiles, hd, hrest] at hev
              rcases hev with hev | hev
              · rcases hev with ⟨m, _, hm⟩
                exact ⟨m, hm.symm⟩
              · exact ih ev hev

theorem ingest_none_ne_nil (files : List IngFile)
    (h : (ingestFiles files).2 = none) : (ingestFiles files).1 ≠ [] := by
  induction files with
  | nil => simp [ingestFiles] at h
  | cons f rest ih =>
      cases hd : f.data with
      | failed k => simp [ingestFiles, hd]
      | content fns rows =>
          rcases hrest : ingestFiles rest with ⟨evs, res⟩
          rw [hrest] at ih
          cases res with
          | none =>
              have hne := ih rfl
              intro hcontra
              simp [ingestFiles, hd, hrest] at hcontra
              exact hne hcontra.2
          | some data =>
              simp [ingestFiles, hd, hrest] at h

/-- Claim C7: when zero records are accepted across all the (validated) input
files, the run terminates with exit status 1, prints a diagnostic, and never
renders a report. -/
theorem zero_records_exit_one (files : List IngFile) (h : Handler)
    (hz : (files.map acceptedOf).flatten = []) :
    (runPipeline files h).2 = 1 ∧
    (∃ ev ∈ (runPipeline files h).1, isDiagEv ev = true) ∧
    (∀ ev ∈ (runPipeline files h).1, isRenderEv ev = false) := by
  rcases hing : ingestFiles files with ⟨evs, res⟩
  have hput := ingest_events_put files
  rw [hing] at hput
  cases res with
  | none =>
      have hne : evs ≠ [] := by
        have := ingest_none_ne_nil files (by rw [hing])
        rw [hing] at this
        exact this
      have hrun : runPipeline files h = (evs, 1) := by
        simp [runPipeline, read_csv_files, hing]
      rw [hrun]
      refine ⟨rfl, ?_, ?_⟩
      · rcases List.exists_mem_of_ne_nil evs hne with ⟨ev, hev⟩
        refine ⟨ev, hev, ?_⟩
        rcases hput ev hev with ⟨m, rfl⟩
        rfl
      · intro ev hev
        rcases hput ev hev with ⟨m, rfl⟩
        rfl
  | some data =>
      have hdata : data = (files.map acceptedOf).flatten := by
        rcases ingestFiles_records files with hn | hs
        · rw [hing] at hn; cases hn
        · rw [hing] at hs; exact Option.some.inj hs
      have hempty : data.isEmpty = true := by rw [hdata, hz]; rfl
      have hrun : runPipeline files h = (evs ++ [put Msg.noDataAtAll], 1) := by
        simp [runPipeline, read_csv_files, hing, hempty]
      rw [hrun]
      refine ⟨rfl, ⟨put Msg.noDataAtAll, by simp, rfl⟩, ?_⟩
      intro ev hev
      rcases List.mem_append.1 hev with hev | hev
      · rcases hput ev hev with ⟨m, rfl⟩
        rfl
      · simp at hev
        rw [hev]
        rfl

/-- Witness for the zero-records theorem: one header-only file yields zero
records, exit status 1 with diagnostics printed and nothing rendered. -/
theorem zero_records_exit_one_witness :
    (runPipeline [IngFile.mk "e.csv" (FileData.content ["brand", "rating"] [])]
          avgHandler).2 = 1 ∧
    (∃ ev ∈ (runPipeline [IngFile.mk "e.csv" (FileData.content ["brand", "rating"] [])]
          avgHandler).1, isDiagEv ev = true) ∧
    (∀ ev ∈ (runPipeline [IngFile.mk "e.csv" (FileData.content ["brand", "rating"] [])]
          avgHandler).1, isRenderEv ev = false) :=
  zero_records_exit_one [IngFile.mk "e.csv" (FileData.content ["brand", "rating"] [])]
    avgHandler (by decide)

theorem pipeline_output_on_stdout (files : List IngFile) (h : Handler) :
    ∀ ev ∈ (runPipeline files h).1, ev.stream = StdStream.stdout := by
  intro ev hev
  rcases hing : ingestFiles files with ⟨evs, res⟩
  have hput := ingest_events_put files
  rw [hing] at hput
  have hstream : ∀ e ∈ evs, e.stream = StdStream.stdout := by
    intro e he
    rcases hput e he with ⟨m, rfl⟩
    rfl
  cases res with
  | none =>
      have hrun : runPipeline files h = (evs, 1) := by
        simp [runPipeline, read_csv_files, hing]
      rw [hrun] at hev
      exact hstream ev hev
  | some data =>
      by_cases hd : data.isEmpty = true
      · have hrun : runPipeline files h = (evs ++ [put Msg.noDataAtAll], 1) := by
          simp [runPipeline, read_csv_files, hing, hd]
        rw [hrun] at hev
        rcases List.mem_append.1 hev with he | he
        · exact hstream ev he
        · simp at he
          rw [he]
          rfl
      · have hread : read_csv_files files = (evs, Except.ok data) := by
          simp [read_csv_files, hing, hd]
        rcases hh : h data with ⟨ropt, msgs⟩
        have hfin : ∀ (X : Ev) (c : Nat),
            runPipeline files h = (evs ++ List.map put msgs ++ [X], c) →
            X.stream = StdStream.stdout → ev.stream = StdStream.stdout := by
          intro X c hrun hX
          rw [hrun] at hev
          rcases List.mem_append.1 hev with he | he
          · rcases List.mem_append.1 he with h1 | h1
            · exact hstream ev h1
            · rcases List.mem_map.1 h1 with ⟨m, _, rfl⟩
              rfl
          · simp at he
            rw [he]
            exact hX
        cases ropt with
        | none =>
            exact hfin (put Msg.unexpectedFailure) 1
              (by simp [runPipeline, hread, hh]) rfl
        | some report =>
            cases report with
            | nil => exact hfin (put Msg.emptyReport) 0 (by simp [runPipeline, hread, hh]) rfl
            | cons r rs =>
                exact hfin (Ev.mk StdStream.stdout (EvKind.render (r :: rs))) 0
                  (by simp [runPipeline, hread, hh]) rfl

/-- Claim C4 counterexample: it is not the case that diagnostics go to the
error stream and that the table is the only content on standard output.  The
source prints every diagnostic with a bare `print`: on the concrete run whose
one candidate file fails the extension check, the diagnostic event is emitted
on standard output. -/
theorem diagnostics_not_on_error_stream :
    ¬ (∀ (cands : List CandFile) (h : Handler) (ev : Ev),
        ev ∈ (mainRun cands h).1 →
        (isDiagEv ev = true → ev.stream = StdStream.stderr) ∧
        (ev.stream = StdStream.stdout → isRenderEv ev = true)) := by
  intro hcl
  have h2 := hcl
      [CandFile.mk "data.txt" true true (FileData.content ["brand", "rating"] [])]
      avgHandler (put (Msg.notACsvFile "data.txt")) (by decide)
  exact absurd (h2.1 (by decide)) (by decide)

/-- Claim C4 amended: every output event of every run, diagnostics and the
rendered table alike, is written to standard output; the error stream
receives nothing (the source only ever uses `print`). -/
theorem all_output_on_stdout (cands : List CandFile) (h : Handler) (ev : Ev)
    (hev : ev ∈ (mainRun cands h).1) : ev.stream = StdStream.stdout := by
  unfold mainRun at hev
  cases hf : firstFailure cands with
  | some m =>
      rw [hf] at hev
      simp at hev
      rw [hev]
      rfl
  | none =>
      rw [hf] at hev
      by_cases hc : cands.isEmpty = true
      · rw [if_pos hc] at hev
        simp at hev
        rw [hev]
        rfl
      · rw [if_neg hc] at hev
        exact pipeline_output_on_stdout _ h ev hev

/-- Witness for the stdout theorem: the extension-check diagnostic of a
concrete failing run is on standard output. -/
theorem all_output_on_stdout_witness :
    (put (Msg.notACsvFile "data.txt")).stream = StdStream.stdout :=
  all_output_on_stdout
    [CandFile.mk "data.txt" true true (FileData.content ["brand", "rating"] [])]
    avgHandler (put (Msg.notACsvFile "data.txt")) (by decide)

theorem mkRat01 : (mkRat 0 1 : ℚ) = 0 := by decide

theorem mkRat51 : (mkRat 5 1 : ℚ) = 5 := by decide

theorem halfEven_def (y : ℚ) : halfEven y =
    if 2 * (y.num - ⌊y⌋ * y.den) < (y.den : ℤ) then ⌊y⌋
    else if (y.den : ℤ) < 2 * (y.num - ⌊y⌋ * y.den) then ⌊y⌋ + 1
    else if ⌊y⌋ % 2 = 0 then ⌊y⌋ else ⌊y⌋ + 1 := by
  simp only [halfEven]
  rw [Rat.floor_def]

theorem floor_lt_of_half (y : ℚ) (h : ¬ 2 * (y.num - ⌊y⌋ * y.den) < (y.den : ℤ)) :
    (⌊y⌋ : ℚ) < y := by
  have hden : (0 : ℚ) < (y.den : ℚ) := by exact_mod_cast y.pos
  have hnum : (y.num : ℚ) = y * (y.den : ℚ) := by
    have h3 := Rat.num_div_den y
    exact (div_eq_iff hden.ne').1 h3
  have h2 : ((y.den : ℤ) : ℚ) ≤ ((2 * (y.num - ⌊y⌋ * y.den) : ℤ) : ℚ) := by
    exact_mod_cast le_of_not_lt h
  push_cast at h2
  nlinarith [h2, hnum, hden]

theorem halfEven_nonneg (y : ℚ) (hy : 0 ≤ y) : 0 ≤ halfEven y := by
  rw [halfEven_def]
  have h0 : 0 ≤ ⌊y⌋ := Int.floor_nonneg.2 hy
  split_ifs <;> omega

theorem halfEven_le_500 (y : ℚ) (hy : y ≤ 500) : halfEven y ≤ 500 := by
  rw [halfEven_def]
  have hfl : ⌊y⌋ ≤ 500 := by
    have h1 : (⌊y⌋ : ℚ) ≤ y := Int.floor_le y
    have h2 : (⌊y⌋ : ℚ) ≤ 500 := le_trans h1 hy
    exact_mod_cast h2
  split_ifs with h1 h2 h3
  · exact hfl
  · have hlt : (⌊y⌋ : ℚ) < y := floor_lt_of_half y h1
    have h4 : (⌊y⌋ : ℚ) < 500 := lt_of_lt_of_le hlt hy
    have h5 : ⌊y⌋ < 500 := by exact_mod_cast h4
    omega
  · exact hfl
  · have hlt : (⌊y⌋ : ℚ) < y := floor_lt_of_half y h1
    have h4 : (⌊y⌋ : ℚ) < 500 := lt_of_lt_of_le hlt hy
    have h5 : ⌊y⌋ < 500 := by exact_mod_cast h4
    omega

theorem rnd2_bounds (q : ℚ) (h0 : 0 ≤ q) (h5 : q ≤ 5) : 0 ≤ rnd2 q ∧ rnd2 q ≤ 5 := by
  have hy0 : 0 ≤ qMul100 q := by rw [qMul100_eq]; positivity
  have hy5 : qMul100 q ≤ 500 := by rw [qMul100_eq]; nlinarith
  have hz0 := halfEven_nonneg _ hy0
  have hz5 := halfEven_le_500 _ hy5
  unfold rnd2
  rw [Rat.mkRat_eq_divInt, Rat.divInt_eq_div]
  constructor
  · apply div_nonneg
    · exact_mod_cast hz0
    · norm_num
  · have h6 : ((halfEven (qMul100 q) : ℤ) : ℚ) ≤ 500 := by exact_mod_cast hz5
    push_cast
    rw [div_le_iff₀ (by norm_num : (0 : ℚ) < 100)]
    linarith

/-- The property the ingestor's range check establishes: neither comparison
of the source's `if rating < 0 or rating > 5` holds (for a finite value this
means membership in the closed interval, while NaN passes vacuously). -/
def ratingOk (x : PyFloat) : Prop :=
  pyLt x (PyFloat.finite (mkRat 0 1)) = false ∧ pyGt x (PyFloat.finite (mkRat 5 1)) = false

theorem ratingOk_finite (r : ℚ) (h : ratingOk (PyFloat.finite r)) : 0 ≤ r ∧ r ≤ 5 := by
  rcases h with ⟨h1, h2⟩
  unfold pyLt at h1
  unfold pyGt at h2
  constructor
  · have h3 := of_decide_eq_false h1
    rw [mkRat01] at h3
    exact le_of_not_lt h3
  · have h3 := of_decide_eq_false h2
    rw [mkRat51] at h3
    exact le_of_not_lt h3

/-- The invariant ingestion establishes on every record it emits: a non-empty
trimmed brand string and a rating value that passed the range check. -/
def goodRecord (rec : List (String × Val)) : Prop :=
  (∃ b, assocGet "brand" rec = some (Val.vStr b) ∧ b ≠ "") ∧
  (∃ x, assocGet "rating" rec = some (Val.vNum x) ∧ ratingOk x)

theorem processRow_accept_good (row : List (String × Option String))
    (r : List (String × Val)) (hacc : processRow row = RowOut.accept r) : goodRecord r := by
  unfold processRow at hacc
  split at hacc
  case h_2 => cases hacc
  case h_1 bs rs hb hr =>
    split at hacc
    · cases hacc
    · dsimp only at hacc
      split at hacc
      · cases hacc
      · rename_i h2
        split at hacc
        · cases hacc
        · rename_i x hx
          split at hacc
          · cases hacc
          · rename_i h3
            have hrv : r = setVal "rating" (Val.vNum x)
                (setVal "brand" (Val.vStr (pyStrip bs)) (injRow row)) :=
              (RowOut.accept.inj hacc).symm
            subst hrv
            simp only [Bool.or_eq_true, decide_eq_true_eq, not_or] at h2 h3
            constructor
            · refine ⟨pyStrip bs, ?_, h2.1⟩
              rw [assocGet_setVal_other "rating" "brand" (by decide), assocGet_setVal_same]
            · refine ⟨x, ?_, ?_, ?_⟩
              · rw [assocGet_setVal_same]
              · exact Bool.eq_false_iff.2 h3.1
              · exact Bool.eq_false_iff.2 h3.2

theorem processRows_mem (file : String) (rows : List (List (String × Option String))) :
    ∀ (n : Nat), ∀ rec ∈ (processRows file n rows).1,
      ∃ row ∈ rows, processRow row = RowOut.accept rec := by
  induction rows with
  | nil => intro n rec h; cases h
  | cons row rest ih =>
      intro n rec h
      unfold processRows at h
      cases hp : processRow row with
      | skip =>
          rw [hp] at h
          rcases ih (n + 1) rec h with ⟨r2, h2, h3⟩
          exact ⟨r2, List.mem_cons_of_mem _ h2, h3⟩
      | badFormat =>
          rw [hp] at h
          dsimp at h
          rcases ih (n + 1) rec h with ⟨r2, h2, h3⟩
          exact ⟨r2, List.mem_cons_of_mem _ h2, h3⟩
      | badRange x =>
          rw [hp] at h
          dsimp at h
          rcases ih (n + 1) rec h with ⟨r2, h2, h3⟩
          exact ⟨r2, List.mem_cons_of_mem _ h2, h3⟩
      | accept r =>
          rw [hp] at h
          dsimp at h
          rcases List.mem_cons.1 h with h1 | h1
          · exact ⟨row, List.mem_cons_self _ _, by rw [hp, h1]⟩
          · rcases ih (n + 1) rec h1 with ⟨r2, h2, h3⟩
            exact ⟨r2, List.mem_cons_of_mem _ h2, h3⟩

theorem ingest_good (files : List IngFile) :
    ∀ (evs : List Ev) (data : List (List (String × Val))),
      ingestFiles files = (evs, some data) → ∀ rec ∈ data, goodRecord rec := by
  induction files with
  | nil =>
      intro evs data hing rec h
      have hd : ([] : List (List (String × Val))) = data :=
        Option.some.inj (Prod.mk.inj hing).2
      rw [← hd] at h
      cases h
  | cons f rest ih =>
      intro evs data hing rec h
      unfold ingestFiles at hing
      cases hd : f.data with
      | failed k =>
          rw [hd] at hing
          cases (Prod.mk.inj hing).2
      | content fns rows =>
          rw [hd] at hing
          rcases hrest : ingestFiles rest with ⟨evs2, res⟩
          rw [hrest] at hing
          cases res with
          | none =>
              dsimp at hing
              cases (Prod.mk.inj hing).2
          | some d2 =>
              dsimp at hing
              have hdata : (contentOutput f.name fns rows).1 ++ d2 = data :=
                Option.some.inj (Prod.mk.inj hing).2
              rw [← hdata] at h
              rcases List.mem_append.1 h with h1 | h1
              · unfold contentOutput at h1
                by_cases hreq : hasRequiredColumns fns = true
                · rw [if_pos hreq] at h1
                  dsimp at h1
                  rcases processRows_mem f.name rows 2 rec h1 with ⟨row, _, hacc⟩
                  exact processRow_accept_good row rec hacc
                · rw [if_neg hreq] at h1
                  cases h1
              · exact ih evs2 d2 hrest rec h1

theorem read_ok_good (files : List IngFile) (evs : List Ev)
    (data : List (List (String × Val)))
    (hok : read_csv_files files = (evs, Except.ok data)) :
    ∀ rec ∈ data, goodRecord rec := by
  unfold read_csv_files at hok
  rcases h : ingestFiles files with ⟨evs0, res⟩
  rw [h] at hok
  cases res with
  | none => cases (Prod.mk.inj hok).2
  | some d =>
      dsimp only at hok
      by_cases hd : d.isEmpty = true
      · rw [if_pos hd] at hok
        cases (Prod.mk.inj hok).2
      · rw [if_neg hd] at hok
        have hde : d = data := Except.ok.inj (Prod.mk.inj hok).2
        subst hde
        exact ingest_good files evs0 d h

/-- One step of the grouping fold of `calculate_average_rating`. -/
def groupStep (gs : List (Val × List Val)) (row : List (String × Val)) :
    List (Val × List Val) :=
  match usableOf row with
  | some (b, r) => addRating b r gs
  | none => gs

theorem brandRatings_eq_foldl (data : List (List (String × Val))) :
    brandRatings data = data.foldl groupStep [] := rfl

theorem groupGet_addRating_same (b : Val) (r : Val) (gs : List (Val × List Val)) :
    groupGet b (addRating b r gs) = some ((groupGet b gs).getD [] ++ [r]) := by
  induction gs with
  | nil => simp [addRating, groupGet]
  | cons g t ih =>
      rcases g with ⟨k, rs⟩
      by_cases h : k = b
      · simp [addRating, groupGet, h]
      · simp [addRating, groupGet, h, ih]

theorem groupGet_addRating_other (bq bi : Val) (r : Val) (h : bq ≠ bi)
    (gs : List (Val × List Val)) : groupGet bq (addRating bi r gs) = groupGet bq gs := by
  induction gs with
  | nil => simp [addRating, groupGet, Ne.symm h]
  | cons g t ih =>
      rcases g with ⟨k, rs⟩
      by_cases hk : k = bi
      · subst hk
        simp [addRating, groupGet, Ne.symm h]
      · by_cases hk2 : k = bq
        · subst hk2
          simp [addRating, groupGet, hk]
        · simp [addRating, groupGet, hk, hk2, ih]

theorem foldl_groupGet (data : List (List (String × Val))) (b : Val) :
    ∀ acc : List (Val × List Val),
      groupGet b (data.foldl groupStep acc) =
        match groupGet b acc with
        | some rs => some (rs ++ ratingsOf data b)
        | none =>
            if (ratingsOf data b).isEmpty then none else some (ratingsOf data b) := by
  induction data with
  | nil =>
      intro acc
      cases h : groupGet b acc <;> simp [ratingsOf, h]
  | cons row rest ih =>
      intro acc
      rw [List.foldl_cons]
      cases hu : usableOf row with
      | none =>
          have hstep : groupStep acc row = acc := by simp [groupStep, hu]
          have hrat : ratingsOf (row :: rest) b = ratingsOf rest b := by
            simp [ratingsOf, List.filterMap_cons, hu]
          rw [hstep, ih acc, hrat]
      | some p =>
          rcases p with ⟨b', r⟩
          have hstep : groupStep acc row = addRating b' r acc := by simp [groupStep, hu]
          rw [hstep, ih]
          by_cases hb : b' = b
          · subst hb
            have hrat : ratingsOf (row :: rest) b' = r :: ratingsOf rest b' := by
              simp [ratingsOf, List.filterMap_cons, hu]
            rw [hrat, groupGet_addRating_same]
            cases h : groupGet b' acc with
            | none => simp [h]
            | some rs => simp [h]
          · have hrat : ratingsOf (row :: rest) b = ratingsOf rest b := by
              simp [ratingsOf, List.filterMap_cons, hu, hb]
            rw [hrat, groupGet_addRating_other b b' r (fun hh => hb hh.symm)]

theorem groupGet_brandRatings (data : List (List (String × Val))) (b : Val) :
    groupGet b (brandRatings data) =
      if (ratingsOf data b).isEmpty then none else some (ratingsOf data b) := by
  have h := foldl_groupGet data b []
  rw [brandRatings_eq_foldl]
  simpa [groupGet] using h

theorem addRating_keys (b : Val) (r : Val) (gs : List (Val × List Val)) :
    (addRating b r gs).map Prod.fst =
      if b ∈ gs.map Prod.fst then gs.map Prod.fst else gs.map Prod.fst ++ [b] := by
  induction gs with
  | nil => simp [addRating]
  | cons g t ih =>
      rcases g with ⟨k, rs⟩
      by_cases h : k = b
      · simp [addRating, h]
      · have hbk : ¬ b = k := fun hh => h hh.symm
        by_cases hm : b ∈ t.map Prod.fst
        · simp [addRating, h, ih, hm, hbk]
        · simp [addRating, h, ih, hm, hbk]

theorem foldl_keys (data : List (List (String × Val))) :
    ∀ acc : List (Val × List Val),
      (data.foldl groupStep acc).map Prod.fst =
        (usableBrands data).foldl (fun ks b => if b ∈ ks then ks else ks ++ [b])
          (acc.map Prod.fst) := by
  induction data with
  | nil => intro acc; simp [usableBrands]
  | cons row rest ih =>
      intro acc
      rw [List.foldl_cons]
      cases hu : usableOf row with
      | none =>
          have h1 : groupStep acc row = acc := by simp [groupStep, hu]
          have h2 : usableBrands (row :: rest) = usableBrands rest := by
            simp [usableBrands, List.filterMap_cons, hu]
          rw [h1, h2, ih]
      | some p =>
          rcases p with ⟨b, r⟩
          have h1 : groupStep acc row = addRating b r acc := by simp [groupStep, hu]
          have h2 : usableBrands (row :: rest) = b :: usableBrands rest := by
            simp [usableBrands, List.filterMap_cons, hu]
          rw [h1, h2, List.foldl_cons, ih, addRating_keys]

theorem keys_brandRatings (data : List (List (String × Val))) :
    (brandRatings data).map Prod.fst = firstAppear (usableBrands data) := by
  have h := foldl_keys data []
  rw [brandRatings_eq_foldl]
  simpa [firstAppear] using h

theorem insertK_nodup (bs : List Val) :
    ∀ acc : List Val, acc.Nodup →
      (bs.foldl (fun ks b => if b ∈ ks then ks else ks ++ [b]) acc).Nodup := by
  induction bs with
  | nil => intro acc h; exact h
  | cons b t ih =>
      intro acc h
      rw [List.foldl_cons]
      by_cases hm : b ∈ acc
      · rw [if_pos hm]
        exact ih acc h
      · rw [if_neg hm]
        apply ih
        rw [List.nodup_append]
        exact ⟨h, List.nodup_singleton b, by
          intro a ha hb
          rcases List.mem_singleton.1 hb with rfl
          exact hm ha⟩

theorem keys_nodup (data : List (List (String × Val))) :
    ((brandRatings data).map Prod.fst).Nodup := by
  rw [keys_brandRatings]
  exact insertK_nodup _ [] List.nodup_nil

theorem groupGet_of_mem (gs : List (Val × List Val)) (hnd : (gs.map Prod.fst).Nodup)
    (g : Val × List Val) (hg : g ∈ gs) : groupGet g.1 gs = some g.2 := by
  induction gs with
  | nil => cases hg
  | cons g0 t ih =>
      rcases g0 with ⟨k, rs⟩
      rcases List.mem_cons.1 hg with h | h
      · rw [h]
        simp [groupGet]
      · have hk : ¬ k = g.1 := by
          intro hh
          have hmem : g.1 ∈ t.map Prod.fst := List.mem_map_of_mem Prod.fst h
          rw [← hh] at hmem
          rw [List.map_cons, List.nodup_cons] at hnd
          exact hnd.1 hmem
        simp only [groupGet, if_neg hk]
        rw [List.map_cons, List.nodup_cons] at hnd
        exact ih hnd.2 h

theorem mem_brandRatings_eq (data : List (List (String × Val))) (g : Val × List Val)
    (hg : g ∈ brandRatings data) : g.2 = ratingsOf data g.1 ∧ g.2 ≠ [] := by
  have h1 := groupGet_of_mem (brandRatings data) (keys_nodup data) g hg
  rw [groupGet_brandRatings] at h1
  by_cases he : (ratingsOf data g.1).isEmpty = true
  · rw [if_pos he] at h1
    cases h1
  · rw [if_neg he] at h1
    have h2 : g.2 = ratingsOf data g.1 := (Option.some.inj h1).symm
    refine ⟨h2, ?_⟩
    rw [h2]
    intro hh
    rw [hh] at he
    exact he rfl

theorem mem_ratingsOf (data : List (List (String × Val))) (b : Val) (v : Val)
    (hv : v ∈ ratingsOf data b) : ∃ row ∈ data, usableOf row = some (b, v) := by
  unfold ratingsOf at hv
  rcases List.mem_filterMap.1 hv with ⟨row, hrow, hf⟩
  refine ⟨row, hrow, ?_⟩
  cases hu : usableOf row with
  | none => rw [hu] at hf; cases hf
  | some p =>
      rcases p with ⟨b', r⟩
      rw [hu] at hf
      dsimp at hf
      by_cases hb : b' = b
      · rw [if_pos hb] at hf
        subst hb
        exact congrArg (fun z => some (b', z)) (Option.some.inj hf)
      · rw [if_neg hb] at hf
        cases hf

theorem foldl_pyAdd_nan (xs : List PyFloat) : xs.foldl pyAdd PyFloat.nan = PyFloat.nan := by
  induction xs with
  | nil => rfl
  | cons x t ih =>
      rw [List.foldl_cons]
      have h : pyAdd PyFloat.nan x = PyFloat.nan := by cases x <;> rfl
      rw [h]
      exact ih

theorem foldl_pyAdd_good (xs : List PyFloat) :
    ∀ p : ℚ, (∀ x ∈ xs, ratingOk x) →
      xs.foldl pyAdd (PyFloat.finite p) = PyFloat.nan ∨
      ∃ q, xs.foldl pyAdd (PyFloat.finite p) = PyFloat.finite q ∧
        p ≤ q ∧ q ≤ p + 5 * xs.length := by
  induction xs with
  | nil =>
      intro p _
      right
      exact ⟨p, rfl, le_refl p, by simp⟩
  | cons x t ih =>
      intro p h
      rw [List.foldl_cons]
      cases x with
      | nan =>
          left
          have hadd : pyAdd (PyFloat.finite p) PyFloat.nan = PyFloat.nan := rfl
          rw [hadd]
          exact foldl_pyAdd_nan t
      | finite r =>
          have hr := ratingOk_finite r (h _ (List.mem_cons_self _ _))
          have hadd : pyAdd (PyFloat.finite p) (PyFloat.finite r) = PyFloat.finite (p + r) := by
            simp [pyAdd, qAdd_eq]
          rw [hadd]
          rcases ih (p + r) (fun y hy => h y (List.mem_cons_of_mem _ hy)) with h1 | ⟨q, h1, h2, h3⟩
          · left
            exact h1
          · right
            refine ⟨q, h1, by linarith [hr.1], ?_⟩
            rw [List.length_cons]
            push_cast
            linarith [hr.2]

theorem vals_are_nums (rs : List Val)
    (h : ∀ v ∈ rs, ∃ x, v = Val.vNum x ∧ ratingOk x) :
    ∃ xs : List PyFloat, rs = xs.map Val.vNum ∧ ∀ x ∈ xs, ratingOk x := by
  induction rs with
  | nil => exact ⟨[], rfl, by intro x hx; cases hx⟩
  | cons v t ih =>
      rcases h v (List.mem_cons_self _ _) with ⟨x, hvx, hx⟩
      rcases ih (fun w hw => h w (List.mem_cons_of_mem _ hw)) with ⟨xs, hts, hxs⟩
      refine ⟨x :: xs, by rw [hvx, hts]; rfl, ?_⟩
      intro y hy
      rcases List.mem_cons.1 hy with hy | hy
      · rw [hy]
        exact hx
      · exact hxs y hy

theorem vsum_fold_aux (xs : List PyFloat) : ∀ a : PyFloat,
    (xs.map Val.vNum).foldl
      (fun acc v =>
        match acc, v with
        | some a, Val.vNum x => some (pyAdd a x)
        | _, _ => none) (some a) = some (xs.foldl pyAdd a) := by
  induction xs with
  | nil => intro a; rfl
  | cons x t ih =>
      intro a
      simp only [List.map, List.foldl_cons]
      exact ih (pyAdd a x)

theorem vsum_map_vNum (xs : List PyFloat) :
    vsum (xs.map Val.vNum) = some (xs.foldl pyAdd (PyFloat.finite (mkRat 0 1))) :=
  vsum_fold_aux xs (PyFloat.finite (mkRat 0 1))

theorem group_avg_ok (rs : List Val) (hne : rs ≠ [])
    (h : ∀ v ∈ rs, ∃ x, v = Val.vNum x ∧ ratingOk x) :
    ∃ m, vmean rs = some m ∧ ratingOk (pyRound2 m) := by
  rcases vals_are_nums rs h with ⟨xs, hrs, hxs⟩
  subst hrs
  unfold vmean
  rw [vsum_map_vNum]
  refine ⟨pyDivNat (xs.foldl pyAdd (PyFloat.finite (mkRat 0 1))) (xs.map Val.vNum).length,
    rfl, ?_⟩
  rcases foldl_pyAdd_good xs (mkRat 0 1) hxs with h1 | ⟨q, h1, h2, h3⟩
  · rw [h1]
    exact ⟨rfl, rfl⟩
  · rw [h1]
    have hn : xs ≠ [] := by
      intro hh
      rw [hh] at hne
      exact hne rfl
    have hnpos : 0 < xs.length := List.length_pos.2 hn
    rw [mkRat01] at h2 h3
    have hq0 : 0 ≤ q := by linarith
    have hlen : (xs.map Val.vNum).length = xs.length := List.length_map xs Val.vNum
    rw [hlen]
    have hdiv0 : 0 ≤ qDivNat q xs.length := by
      rw [qDivNat_eq]
      positivity
    have hdiv5 : qDivNat q xs.length ≤ 5 := by
      rw [qDivNat_eq]
      rw [div_le_iff₀ (by exact_mod_cast hnpos : (0 : ℚ) < (xs.length : ℚ))]
      linarith
    have hb := rnd2_bounds _ hdiv0 hdiv5
    constructor
    · show decide (rnd2 (qDivNat q xs.length) < mkRat 0 1) = false
      apply decide_eq_false
      rw [mkRat01]
      exact not_lt.2 hb.1
    · show decide (mkRat 5 1 < rnd2 (qDivNat q xs.length)) = false
      apply decide_eq_false
      rw [mkRat51]
      exact not_lt.2 hb.2

theorem seqMapOpt_mem {α β : Type} (f : α → Option β) (l : List α) :
    ∀ out : List β, seqMapOpt f l = some out → ∀ b ∈ out, ∃ a ∈ l, f a = some b := by
  induction l with
  | nil =>
      intro out h b hb
      have : ([] : List β) = out := Option.some.inj h
      rw [← this] at hb
      cases hb
  | cons a t ih =>
      intro out h b hb
      unfold seqMapOpt at h
      cases hf : f a with
      | none => rw [hf] at h; cases h
      | some b0 =>
          rw [hf] at h
          cases ht : seqMapOpt f t with
          | none => rw [ht] at h; cases h
          | some bs =>
              rw [ht] at h
              have hout : b0 :: bs = out := Option.some.inj h
              rw [← hout] at hb
              rcases List.mem_cons.1 hb with hb1 | hb1
              · exact ⟨a, List.mem_cons_self _ _, by rw [hf, hb1]⟩
              · rcases ih bs ht b hb1 with ⟨a2, h2, h3⟩
                exact ⟨a2, List.mem_cons_of_mem _ h2, h3⟩

/-- Claim C2 amended: every record the ingestor hands to the aggregator has a
non-empty (post-trim) brand and a rating on which neither of the source's
range comparisons `rating < 0` and `rating > 5` holds (for finite ratings
this is exactly membership in [0, 5]; a NaN rating passes both comparisons
vacuously, see the counterexample); consequently no average in the
aggregator's output compares greater than 5 or less than 0. -/
theorem ingested_records_in_range (files : List IngFile) (evs : List Ev)
    (data : List (List (String × Val)))
    (hok : read_csv_files files = (evs, Except.ok data)) :
    (∀ rec ∈ data, goodRecord rec) ∧
    (∀ out, calculate_average_rating data = some out →
        ∀ row ∈ out,
          pyGt row.average_rating (PyFloat.finite (mkRat 5 1)) = false ∧
          pyLt row.average_rating (PyFloat.finite (mkRat 0 1)) = false) := by
  have hgood := read_ok_good files evs data hok
  refine ⟨hgood, ?_⟩
  intro out hcal row hrow
  unfold calculate_average_rating at hcal
  by_cases hgs : (brandRatings data).isEmpty = true
  · rw [if_pos hgs] at hcal
    have hnil : ([] : List ReportRow) = out := Option.some.inj hcal
    rw [← hnil] at hrow
    cases hrow
  · rw [if_neg hgs] at hcal
    cases hsm : seqMapOpt
        (fun g => (vmean g.2).map (fun m => ReportRow.mk g.1 (pyRound2 m)))
        (brandRatings data) with
    | none => rw [hsm] at hcal; cases hcal
    | some raw =>
        rw [hsm] at hcal
        dsimp at hcal
        have hout : sortReport raw = out := Option.some.inj hcal
        have hmem : row ∈ raw := by
          rw [← hout] at hrow
          exact (List.mem_insertionSort rowGe).1 hrow
        rcases seqMapOpt_mem _ (brandRatings data) raw hsm row hmem with ⟨g, hgmem, hfg⟩
        cases hv : vmean g.2 with
        | none => rw [hv] at hfg; cases hfg
        | some m =>
            rw [hv] at hfg
            dsimp at hfg
            have hrow_eq : ReportRow.mk g.1 (pyRound2 m) = row := Option.some.inj hfg
            rcases mem_brandRatings_eq data g hgmem with ⟨hg2, hg2ne⟩
            have hvals : ∀ v ∈ g.2, ∃ x, v = Val.vNum x ∧ ratingOk x := by
              intro v hv2
              rw [hg2] at hv2
              rcases mem_ratingsOf data g.1 v hv2 with ⟨rec, hrec, hu⟩
              rcases hgood rec hrec with ⟨⟨b, hb, hbne⟩, ⟨x, hx, hxok⟩⟩
              unfold usableOf at hu
              rw [hb, hx] at hu
              dsimp at hu
              have hp := Prod.mk.inj (Option.some.inj hu)
              exact ⟨x, hp.2.symm, hxok⟩
            rcases group_avg_ok g.2 hg2ne hvals with ⟨m2, hm2, hok2⟩
            rw [hv] at hm2
            have hm : m = m2 := Option.some.inj hm2
            rw [← hrow_eq]
            dsimp
            rw [hm]
            exact ⟨hok2.2, hok2.1⟩

/-- Claim C2 counterexample: the stated invariant `rating within [0, 5]` is
not what the code establishes: a row whose rating field is the string `nan`
is accepted (NaN fails both range comparisons), and the resulting record's
rating is NaN, which lies in no interval. -/
theorem nan_record_escapes_range :
    ¬ (∀ (files : List IngFile) (evs : List Ev) (data : List (List (String × Val))),
        read_csv_files files = (evs, Except.ok data) →
        ∀ rec ∈ data, ∀ x, assocGet "rating" rec = some (Val.vNum x) →
          ∃ q, x = PyFloat.finite q ∧ 0 ≤ q ∧ q ≤ 5) := by
  intro hcl
  have h2 := hcl
      [IngFile.mk "r.csv"
        (FileData.content ["brand", "rating"]
          [[("brand", some "acme"), ("rating", some "nan")]])]
      [] [[("brand", Val.vStr "acme"), ("rating", Val.vNum PyFloat.nan)]] (by decide)
      [("brand", Val.vStr "acme"), ("rating", Val.vNum PyFloat.nan)] (by decide)
      PyFloat.nan (by decide)
  rcases h2 with ⟨q, hq, _, _⟩
  cases hq

/-- Witness for the range theorem: a one-row run, whose single record is good
and whose single report row has an average within bounds. -/
theorem ingested_records_in_range_witness :
    (∀ rec ∈ [[("brand", Val.vStr "b"), ("rating", Val.vNum (PyFloat.finite (mkRat 9 2)))]],
        goodRecord rec) ∧
    (∀ out,
        calculate_average_rating
            [[("brand", Val.vStr "b"), ("rating", Val.vNum (PyFloat.finite (mkRat 9 2)))]] =
          some out →
        ∀ row ∈ out,
          pyGt row.average_rating (PyFloat.finite (mkRat 5 1)) = false ∧
          pyLt row.average_rating (PyFloat.finite (mkRat 0 1)) = false) :=
  ingested_records_in_range
    [IngFile.mk "w.csv"
      (FileData.content ["brand", "rating"]
        [[("brand", some "b"), ("rating", some "4.5")]])]
    [] [[("brand", Val.vStr "b"), ("rating", Val.vNum (PyFloat.finite (mkRat 9 2)))]]
    (by decide)

/-- Whether a row is a typed Record: its `brand` value is a string and its
`rating` value is a float. -/
def typedRow (row : List (String × Val)) : Bool :=
  match assocGet "brand" row, assocGet "rating" row with
  | some (Val.vStr _), some (Val.vNum _) => true
  | _, _ => false

/-- Records each with a string brand and a float rating. -/
def wellTyped (data : List (List (String × Val))) : Prop :=
  ∀ row ∈ data, typedRow row = true

/-- Whether a row's rating value is a finite (non-NaN) float. -/
def finiteRating (row : List (String × Val)) : Bool :=
  match assocGet "rating" row with
  | some (Val.vNum (PyFloat.finite _)) => true
  | _ => false

/-- No rating in the data is NaN. -/
def allFinite (data : List (List (String × Val))) : Prop :=
  ∀ row ∈ data, finiteRating row = true

instance (data : List (List (String × Val))) : Decidable (wellTyped data) :=
  inferInstanceAs (Decidable (∀ row ∈ data, typedRow row = true))

instance (data : List (List (String × Val))) : Decidable (allFinite data) :=
  inferInstanceAs (Decidable (∀ row ∈ data, finiteRating row = true))

theorem typedRow_elim (row : List (String × Val)) (h : typedRow row = true) :
    ∃ b x, assocGet "brand" row = some (Val.vStr b) ∧
      assocGet "rating" row = some (Val.vNum x) := by
  unfold typedRow at h
  cases hb : assocGet "brand" row with
  | none => rw [hb] at h; cases h
  | some vb =>
      cases hr : assocGet "rating" row with
      | none => rw [hb, hr] at h; cases vb <;> cases h
      | some vr =>
          rw [hb, hr] at h
          cases vb with
          | vStr b =>
              cases vr with
              | vNum x => exact ⟨b, x, rfl, rfl⟩
              | vNone => cases h
              | vStr s => cases h
          | vNone => cases h
          | vNum y => cases h

theorem finiteRating_elim (row : List (String × Val)) (h : finiteRating row = true)
    (x : PyFloat) (hx : assocGet "rating" row = some (Val.vNum x)) :
    ∃ q, x = PyFloat.finite q := by
  unfold finiteRating at h
  rw [hx] at h
  cases x with
  | finite q => exact ⟨q, rfl⟩
  | nan => cases h

/-- A report row whose average is a finite float. -/
def rowFinite (row : ReportRow) : Prop := ∃ q, row.average_rating = PyFloat.finite q

theorem rowGe_trans {a b c : ReportRow} (h1 : rowGe a b) (h2 : rowGe b c) : rowGe a c := by
  unfold rowGe at h1 h2 ⊢
  cases ha : a.average_rating with
  | nan => rw [ha] at h1; cases h1
  | finite p =>
      cases hb : b.average_rating with
      | nan => rw [hb] at h2; cases h2
      | finite q =>
          cases hc : c.average_rating with
          | nan => rw [hb, hc] at h2; cases h2
          | finite s =>
              rw [ha, hb] at h1
              rw [hb, hc] at h2
              have hqp : q ≤ p := of_decide_eq_true h1
              have hsq : s ≤ q := of_decide_eq_true h2
              exact decide_eq_true (le_trans hsq hqp)

theorem rowGe_total {a b : ReportRow} (ha : rowFinite a) (hb : rowFinite b) :
    rowGe a b ∨ rowGe b a := by
  rcases ha with ⟨p, hp⟩
  rcases hb with ⟨q, hq⟩
  unfold rowGe
  rw [hp, hq]
  rcases le_total q p with h | h
  · left; exact decide_eq_true h
  · right; exact decide_eq_true h

theorem orderedInsert_sorted_fin (a : ReportRow) (l : List ReportRow)
    (ha : rowFinite a) (hl : ∀ x ∈ l, rowFinite x) (hs : List.Pairwise rowGe l) :
    List.Pairwise rowGe (List.orderedInsert rowGe a l) := by
  induction l with
  | nil => exact List.pairwise_singleton rowGe a
  | cons b t ih =>
      rw [List.orderedInsert]
      by_cases hab : rowGe a b
      · rw [if_pos hab]
        rw [List.pairwise_cons]
        refine ⟨?_, hs⟩
        intro y hy
        rcases List.mem_cons.1 hy with hy | hy
        · rw [hy]; exact hab
        · exact rowGe_trans hab (List.rel_of_pairwise_cons hs hy)
      · rw [if_neg hab]
        rw [List.pairwise_cons] at hs
        rw [List.pairwise_cons]
        refine ⟨?_, ih (fun x hx => hl x (List.mem_cons_of_mem _ hx)) hs.2⟩
        intro y hy
        rcases (List.mem_orderedInsert rowGe).1 hy with hy | hy
        · rw [hy]
          exact (rowGe_total ha (hl b (List.mem_cons_self _ _))).resolve_left hab
        · exact hs.1 y hy

theorem sortReport_sorted_fin (l : List ReportRow) (hl : ∀ x ∈ l, rowFinite x) :
    List.Pairwise rowGe (sortReport l) := by
  induction l with
  | nil => exact List.Pairwise.nil
  | cons a t ih =>
      unfold sortReport List.insertionSort
      apply orderedInsert_sorted_fin
      · exact hl a (List.mem_cons_self _ _)
      · intro x hx
        exact hl x (List.mem_cons_of_mem _ ((List.mem_insertionSort rowGe).1 hx))
      · exact ih (fun x hx => hl x (List.mem_cons_of_mem _ hx))

theorem vals_map (rs : List Val) (h : ∀ v ∈ rs, ∃ x, v = Val.vNum x) :
    ∃ xs : List PyFloat, rs = xs.map Val.vNum := by
  induction rs with
  | nil => exact ⟨[], rfl⟩
  | cons v t ih =>
      rcases h v (List.mem_cons_self _ _) with ⟨x, hvx⟩
      rcases ih (fun w hw => h w (List.mem_cons_of_mem _ hw)) with ⟨xs, hts⟩
      exact ⟨x :: xs, by rw [hvx, hts]; rfl⟩

theorem foldl_pyAdd_finite (xs : List PyFloat) :
    ∀ p : ℚ, (∀ x ∈ xs, ∃ q, x = PyFloat.finite q) →
      ∃ q, xs.foldl pyAdd (PyFloat.finite p) = PyFloat.finite q := by
  induction xs with
  | nil => intro p _; exact ⟨p, rfl⟩
  | cons x t ih =>
      intro p h
      rcases h x (List.mem_cons_self _ _) with ⟨r, hr⟩
      rw [List.foldl_cons, hr]
      have hadd : pyAdd (PyFloat.finite p) (PyFloat.finite r) = PyFloat.finite (qAdd p r) := rfl
      rw [hadd]
      exact ih (qAdd p r) (fun y hy => h y (List.mem_cons_of_mem _ hy))

theorem vmean_some (rs : List Val) (h : ∀ v ∈ rs, ∃ x, v = Val.vNum x) :
    ∃ m, vmean rs = some m := by
  rcases vals_map rs h with ⟨xs, hrs⟩
  subst hrs
  unfold vmean
  rw [vsum_map_vNum]
  exact ⟨_, rfl⟩

theorem vmean_finite (rs : List Val)
    (h : ∀ v ∈ rs, ∃ x, v = Val.vNum x ∧ ∃ q, x = PyFloat.finite q) :
    ∃ q, vmean rs = some (PyFloat.finite q) := by
  rcases vals_map rs (fun v hv => ⟨(h v hv).choose, (h v hv).choose_spec.1⟩) with ⟨xs, hrs⟩
  have hfin : ∀ x ∈ xs, ∃ q, x = PyFloat.finite q := by
    intro x hx
    have hvx : Val.vNum x ∈ rs := by
      rw [hrs]
      exact List.mem_map_of_mem Val.vNum hx
    rcases h _ hvx with ⟨y, hy, q, hq⟩
    exact ⟨q, by rw [Val.vNum.inj hy, hq]⟩
  subst hrs
  unfold vmean
  rw [vsum_map_vNum]
  rcases foldl_pyAdd_finite xs (mkRat 0 1) hfin with ⟨q, hq⟩
  rw [hq]
  exact ⟨_, rfl⟩

theorem seqMapOpt_some_of_forall {α β : Type} (f : α → Option β) (l : List α)
    (h : ∀ a ∈ l, ∃ b, f a = some b) : ∃ out, seqMapOpt f l = some out := by
  induction l with
  | nil => exact ⟨[], rfl⟩
  | cons a t ih =>
      rcases h a (List.mem_cons_self _ _) with ⟨b, hb⟩
      rcases ih (fun x hx => h x (List.mem_cons_of_mem _ hx)) with ⟨out, hout⟩
      refine ⟨b :: out, ?_⟩
      unfold seqMapOpt
      rw [hb, hout]

theorem seqMapOpt_map_brand (gs : List (Val × List Val)) :
    ∀ raw : List ReportRow,
      seqMapOpt (fun g => (vmean g.2).map (fun m => ReportRow.mk g.1 (pyRound2 m))) gs =
        some raw →
      raw.map ReportRow.brand = gs.map Prod.fst := by
  induction gs with
  | nil =>
      intro raw h
      rw [← Option.some.inj h]
      rfl
  | cons g t ih =>
      intro raw h
      unfold seqMapOpt at h
      cases hv : vmean g.2 with
      | none => rw [hv] at h; cases h
      | some m =>
          rw [hv] at h
          dsimp at h
          cases ht : seqMapOpt
              (fun g => (vmean g.2).map (fun m => ReportRow.mk g.1 (pyRound2 m))) t with
          | none => rw [ht] at h; cases h
          | some bs =>
              rw [ht] at h
              rw [← Option.some.inj h]
              rw [List.map_cons, List.map_cons, ih bs ht]

theorem mem_insertK (bs : List Val) :
    ∀ (acc : List Val) (b : Val),
      b ∈ bs.foldl (fun ks c => if c ∈ ks then ks else ks ++ [c]) acc ↔
        b ∈ acc ∨ b ∈ bs := by
  induction bs with
  | nil => intro acc b; simp
  | cons c t ih =>
      intro acc b
      rw [List.foldl_cons]
      by_cases hc : c ∈ acc
      · rw [if_pos hc, ih]
        constructor
        · rintro (h | h)
          · exact Or.inl h
          · exact Or.inr (List.mem_cons_of_mem _ h)
        · rintro (h | h)
          · exact Or.inl h
          · rcases List.mem_cons.1 h with h | h
            · rw [h]; exact Or.inl hc
            · exact Or.inr h
      · rw [if_neg hc, ih]
        constructor
        · rintro (h | h)
          · rcases List.mem_append.1 h with h | h
            · exact Or.inl h
            · rcases List.mem_singleton.1 h with rfl
              exact Or.inr (List.mem_cons_self _ _)
          · exact Or.inr (List.mem_cons_of_mem _ h)
        · rintro (h | h)
          · exact Or.inl (List.mem_append.2 (Or.inl h))
          · rcases List.mem_cons.1 h with h | h
            · rw [h]
              exact Or.inl (List.mem_append.2 (Or.inr (List.mem_singleton.2 rfl)))
            · exact Or.inr h

theorem mem_firstAppear (b : Val) (bs : List Val) : b ∈ firstAppear bs ↔ b ∈ bs := by
  unfold firstAppear
  rw [mem_insertK]
  simp

theorem firstAppear_nil (bs : List Val) (h : firstAppear bs = []) : bs = [] := by
  cases bs with
  | nil => rfl
  | cons c t =>
      have hmem : c ∈ firstAppear (c :: t) :=
        (mem_firstAppear c (c :: t)).2 (List.mem_cons_self _ _)
      rw [h] at hmem
      cases hmem

theorem calc_some_struct (data : List (List (String × Val))) (out : List ReportRow)
    (hcal : calculate_average_rating data = some out) :
    (out = [] ∧ brandRatings data = []) ∨
    ∃ raw,
      seqMapOpt (fun g => (vmean g.2).map (fun m => ReportRow.mk g.1 (pyRound2 m)))
          (brandRatings data) = some raw ∧
      out = sortReport raw := by
  unfold calculate_average_rating at hcal
  by_cases hgs : (brandRatings data).isEmpty = true
  · rw [if_pos hgs] at hcal
    left
    exact ⟨(Option.some.inj hcal).symm, List.isEmpty_iff.1 hgs⟩
  · rw [if_neg hgs] at hcal
    cases hsm : seqMapOpt
        (fun g => (vmean g.2).map (fun m => ReportRow.mk g.1 (pyRound2 m)))
        (brandRatings data) with
    | none => rw [hsm] at hcal; cases hcal
    | some raw =>
        rw [hsm] at hcal
        dsimp at hcal
        exact Or.inr ⟨raw, rfl, (Option.some.inj hcal).symm⟩

/-- The input of the specification's grouping example: apple 4.7, apple 4.9,
samsung 4.5. -/
def exampleData : List (List (String × Val)) :=
  [[("brand", Val.vStr "apple"), ("rating", Val.vNum (PyFloat.finite (mkRat 47 10)))],
   [("brand", Val.vStr "apple"), ("rating", Val.vNum (PyFloat.finite (mkRat 49 10)))],
   [("brand", Val.vStr "samsung"), ("rating", Val.vNum (PyFloat.finite (mkRat 9 2)))]]

/-- The output the specification's grouping example expects: apple 4.8 then
samsung 4.5. -/
def exampleReport : List ReportRow :=
  [ReportRow.mk (Val.vStr "apple") (PyFloat.finite (mkRat 24 5)),
   ReportRow.mk (Val.vStr "samsung") (PyFloat.finite (mkRat 9 2))]

/-- Claim C1 amended: provided every rating is a finite float (a NaN rating,
which the ingestor can produce, makes the output order incomparable and
breaks the descending-sort clause; see the counterexample), the aggregator
returns exactly one row per distinct brand (exact, case-sensitive equality),
each row's average is the arithmetic mean of that brand's ratings rounded to
two decimal places (round-half-to-even), and the output is sorted descending
by average; in particular the input apple 4.7, apple 4.9, samsung 4.5 yields
apple 4.8 then samsung 4.5. -/
theorem aggregator_groups_averages_sorts :
    (∀ (data : List (List (String × Val))) (out : List ReportRow),
        wellTyped data → allFinite data →
        calculate_average_rating data = some out →
        ((out.map ReportRow.brand).Nodup ∧
          ∀ b, b ∈ out.map ReportRow.brand ↔ b ∈ usableBrands data) ∧
        (∀ row ∈ out, ∃ m,
            vmean (ratingsOf data row.brand) = some m ∧
            row.average_rating = pyRound2 m) ∧
        List.Pairwise rowGe out) ∧
    (calculate_average_rating exampleData = some exampleReport ∧
      (mkRat 24 5 : ℚ) = 24 / 5 ∧ (mkRat 9 2 : ℚ) = 9 / 2) := by
  constructor
  · intro data out hwt haf hcal
    have hgvals : ∀ g ∈ brandRatings data, ∀ v ∈ g.2,
        ∃ x, v = Val.vNum x ∧ ∃ q, x = PyFloat.finite q := by
      intro g hg v hv
      rcases mem_brandRatings_eq data g hg with ⟨hg2, _⟩
      rw [hg2] at hv
      rcases mem_ratingsOf data g.1 v hv with ⟨rec, hrec, hu⟩
      rcases typedRow_elim rec (hwt rec hrec) with ⟨b, x, hb, hx⟩
      unfold usableOf at hu
      rw [hb, hx] at hu
      dsimp at hu
      have hp := Prod.mk.inj (Option.some.inj hu)
      exact ⟨x, hp.2.symm, finiteRating_elim rec (haf rec hrec) x hx⟩
    rcases calc_some_struct data out hcal with ⟨hout, hgs⟩ | ⟨raw, hsm, hout⟩
    · subst hout
      have husable : usableBrands data = [] := by
        apply firstAppear_nil
        rw [← keys_brandRatings, hgs]
        rfl
      refine ⟨⟨List.nodup_nil, ?_⟩, ?_, List.Pairwise.nil⟩
      · intro b
        rw [husable]
        simp
      · intro row hrow
        cases hrow
    · have hbrands : raw.map ReportRow.brand = firstAppear (usableBrands data) := by
        rw [seqMapOpt_map_brand (brandRatings data) raw hsm, keys_brandRatings]
      have hperm : (out.map ReportRow.brand).Perm (raw.map ReportRow.brand) := by
        rw [hout]
        exact (List.perm_insertionSort rowGe raw).map ReportRow.brand
      refine ⟨⟨?_, ?_⟩, ?_, ?_⟩
      · apply hperm.nodup_iff.2
        rw [hbrands]
        unfold firstAppear
        exact insertK_nodup _ [] List.nodup_nil
      · intro b
        rw [hperm.mem_iff, hbrands, mem_firstAppear]
      · intro row hrow
        have hmem : row ∈ raw := by
          rw [hout] at hrow
          exact (List.mem_insertionSort rowGe).1 hrow
        rcases seqMapOpt_mem _ _ raw hsm row hmem with ⟨g, hg, hfg⟩
        cases hv : vmean g.2 with
        | none => rw [hv] at hfg; cases hfg
        | some m =>
            rw [hv] at hfg
            dsimp at hfg
            have hrow_eq : ReportRow.mk g.1 (pyRound2 m) = row := Option.some.inj hfg
            rcases mem_brandRatings_eq data g hg with ⟨hg2, _⟩
            refine ⟨m, ?_, ?_⟩
            · rw [← hrow_eq]
              dsimp
              rw [← hg2, hv]
            · rw [← hrow_eq]
      · rw [hout]
        apply sortReport_sorted_fin
        intro row hrow
        rcases seqMapOpt_mem _ _ raw hsm row hrow with ⟨g, hg, hfg⟩
        rcases vmean_finite g.2 (hgvals g hg) with ⟨q, hq⟩
        rw [hq] at hfg
        dsimp at hfg
        have hrow_eq : ReportRow.mk g.1 (pyRound2 (PyFloat.finite q)) = row :=
          Option.some.inj hfg
        rw [← hrow_eq]
        exact ⟨rnd2 q, rfl⟩
  · refine ⟨by decide, ?_, ?_⟩
    · rw [Rat.mkRat_eq_divInt, Rat.divInt_eq_div]
      norm_num
    · rw [Rat.mkRat_eq_divInt, Rat.divInt_eq_div]
      norm_num

/-- Claim C1 counterexample: without the finiteness proviso the claim is
false.  A NaN rating (which the pipeline admits, claim C10) gives its brand a
NaN average, and NaN compares false against everything, so the output of the
concrete two-brand input below is not sorted descending.  The last two
conjuncts cover both orders of the two report rows, so the refutation does
not depend on where a sort implementation places the NaN row. -/
theorem nan_breaks_descending_sort :
    (¬ (∀ (data : List (List (String × Val))) (out : List ReportRow),
        wellTyped data →
        calculate_average_rating data = some out →
        List.Pairwise rowGe out)) ∧
    (¬ List.Pairwise rowGe
        [ReportRow.mk (Val.vStr "b") (PyFloat.finite (mkRat 1 1)),
         ReportRow.mk (Val.vStr "a") PyFloat.nan]) ∧
    (¬ List.Pairwise rowGe
        [ReportRow.mk (Val.vStr "a") PyFloat.nan,
         ReportRow.mk (Val.vStr "b") (PyFloat.finite (mkRat 1 1))]) := by
  refine ⟨?_, by decide, by decide⟩
  intro hcl
  have h2 := hcl
      [[("brand", Val.vStr "a"), ("rating", Val.vNum PyFloat.nan)],
       [("brand", Val.vStr "b"), ("rating", Val.vNum (PyFloat.finite (mkRat 1 1)))]]
      [ReportRow.mk (Val.vStr "b") (PyFloat.finite (mkRat 1 1)),
       ReportRow.mk (Val.vStr "a") PyFloat.nan]
      (by decide) (by decide)
  exact absurd h2 (by decide)

/-- Witness for the aggregator theorem: the specification's own example input
instantiates every hypothesis and conclusion. -/
theorem aggregator_groups_averages_sorts_witness :
    ((exampleReport.map ReportRow.brand).Nodup ∧
      ∀ b, b ∈ exampleReport.map ReportRow.brand ↔ b ∈ usableBrands exampleData) ∧
    (∀ row ∈ exampleReport, ∃ m,
        vmean (ratingsOf exampleData row.brand) = some m ∧
        row.average_rating = pyRound2 m) ∧
    List.Pairwise rowGe exampleReport :=
  aggregator_groups_averages_sorts.1 exampleData exampleReport (by decide) (by decide)
    (by decide)

theorem pyEq_rowGe {x y : ReportRow} (h : pyEq x.average_rating y.average_rating = true) :
    rowGe x y := by
  unfold rowGe
  cases hx : x.average_rating with
  | nan =>
      cases hy : y.average_rating with
      | nan => rw [hx, hy] at h; cases h
      | finite q => rw [hx, hy] at h; cases h
  | finite p =>
      cases hy : y.average_rating with
      | nan => rw [hx, hy] at h; cases h
      | finite q =>
          rw [hx, hy] at h
          have hpq : p = q := of_decide_eq_true h
          exact decide_eq_true (le_of_eq hpq.symm)

theorem sublist_pair_of_map_aux {α β : Type} (f : α → β) :
    ∀ (l : List α) (u v : β), List.Sublist [u, v] (l.map f) → (l.map f).Nodup →
      ∀ x y, x ∈ l → y ∈ l → f x = u → f y = v → List.Sublist [x, y] l := by
  intro l
  induction l with
  | nil => intro u v hs hnd x y hx; cases hx
  | cons a t ih =>
      intro u v hs hnd x y hx hy hfx hfy
      rw [List.map_cons] at hs hnd
      rw [List.nodup_cons] at hnd
      cases hs with
      | cons _ h =>
          have hu : u ∈ t.map f := (List.Sublist.subset h) (List.mem_cons_self _ _)
          have hv : v ∈ t.map f := (List.Sublist.subset h) (by simp)
          have hxt : x ∈ t := by
            rcases List.mem_cons.1 hx with hxa | hxt
            · have hcontra : f a ∈ t.map f := by rw [← hxa, hfx]; exact hu
              exact absurd hcontra hnd.1
            · exact hxt
          have hyt : y ∈ t := by
            rcases List.mem_cons.1 hy with hya | hyt
            · have hcontra : f a ∈ t.map f := by rw [← hya, hfy]; exact hv
              exact absurd hcontra hnd.1
            · exact hyt
          exact List.Sublist.cons a (ih u v h hnd.2 x y hxt hyt hfx hfy)
      | cons₂ _ h =>
          have hv : v ∈ t.map f := (List.Sublist.subset h) (List.mem_cons_self _ _)
          have hxa : x = a := by
            rcases List.mem_cons.1 hx with hxa | hxt
            · exact hxa
            · have hcontra : f a ∈ t.map f := by rw [← hfx]; exact List.mem_map_of_mem f hxt
              exact absurd hcontra hnd.1
          have hyt : y ∈ t := by
            rcases List.mem_cons.1 hy with hya | hyt
            · have hcontra : f a ∈ t.map f := by rw [hya] at hfy; rw [← hfy] at hv; exact hv
              exact absurd hcontra hnd.1
            · exact hyt
          rw [hxa]
          exact List.Sublist.cons₂ a (List.singleton_sublist.2 hyt)

theorem sublist_pair_of_map {α β : Type} (f : α → β) (l : List α) (x y : α)
    (hnd : (l.map f).Nodup) (hx : x ∈ l) (hy : y ∈ l)
    (hs : List.Sublist [f x, f y] (l.map f)) : List.Sublist [x, y] l :=
  sublist_pair_of_map_aux f l (f x) (f y) hs hnd x y hx hy rfl rfl

/-- Claim C5: whenever two report rows have equal (Python `==`, hence finite)
rounded averages and their brands appear in a given first-appearance order in
the input, the aggregator's output keeps them in that order: the grouping
structure iterates in first-appearance order and the descending sort is
stable. -/
theorem equal_averages_keep_first_appearance_order
    (data : List (List (String × Val))) (out : List ReportRow) (x y : ReportRow)
    (hcal : calculate_average_rating data = some out)
    (hx : x ∈ out) (hy : y ∈ out)
    (heq : pyEq x.average_rating y.average_rating = true)
    (hbr : List.Sublist [x.brand, y.brand] (firstAppear (usableBrands data))) :
    List.Sublist [x, y] out := by
  rcases calc_some_struct data out hcal with ⟨hout, _⟩ | ⟨raw, hsm, hout⟩
  · subst hout
    cases hx
  · have hbrands : raw.map ReportRow.brand = firstAppear (usableBrands data) := by
      rw [seqMapOpt_map_brand _ raw hsm, keys_brandRatings]
    have hxr : x ∈ raw := by
      rw [hout] at hx
      exact (List.mem_insertionSort rowGe).1 hx
    have hyr : y ∈ raw := by
      rw [hout] at hy
      exact (List.mem_insertionSort rowGe).1 hy
    have hnd : (raw.map ReportRow.brand).Nodup := by
      rw [hbrands]
      unfold firstAppear
      exact insertK_nodup _ [] List.nodup_nil
    have hsub : List.Sublist [x, y] raw := by
      apply sublist_pair_of_map ReportRow.brand raw x y hnd hxr hyr
      rw [hbrands]
      exact hbr
    rw [hout]
    exact List.pair_sublist_insertionSort (pyEq_rowGe heq) hsub

/-- Witness for the stability theorem: two brands tied at 4.5 keep their
first-appearance order in the output. -/
theorem equal_averages_keep_first_appearance_order_witness :
    List.Sublist
      [ReportRow.mk (Val.vStr "a") (PyFloat.finite (mkRat 9 2)),
       ReportRow.mk (Val.vStr "b") (PyFloat.finite (mkRat 9 2))]
      [ReportRow.mk (Val.vStr "a") (PyFloat.finite (mkRat 9 2)),
       ReportRow.mk (Val.vStr "b") (PyFloat.finite (mkRat 9 2))] :=
  equal_averages_keep_first_appearance_order
    [[("brand", Val.vStr "a"), ("rating", Val.vNum (PyFloat.finite (mkRat 9 2)))],
     [("brand", Val.vStr "b"), ("rating", Val.vNum (PyFloat.finite (mkRat 9 2)))]]
    [ReportRow.mk (Val.vStr "a") (PyFloat.finite (mkRat 9 2)),
     ReportRow.mk (Val.vStr "b") (PyFloat.finite (mkRat 9 2))]
    (ReportRow.mk (Val.vStr "a") (PyFloat.finite (mkRat 9 2)))
    (ReportRow.mk (Val.vStr "b") (PyFloat.finite (mkRat 9 2)))
    (by decide) (by decide) (by decide) (by decide) (by decide)
